import Mathlib

/-!
Verification of the transitive state-synchronization core (MqttSync /
DataCache / topic codec) against its natural-language specification.

The JavaScript source is shallowly embedded: JSON values become the
inductive type `Value` (objects are modelled as insertion-ordered lists of
string-keyed entries, matching JS property order; arrays are atomic for
path traversal, matching the spec's data model in which interior nodes are
string-keyed maps — lodash's numeric-index array creation is not modelled),
and the lodash helpers `get` / `set` / `unset` / `isEqual` / `isEmpty` are
embedded for that representation. All definitions are structurally
recursive (fuelled where the source recursion is not structural, with fuel
bounds that are provably sufficient), so every function evaluates on
concrete inputs.
-/

/-- JSON values as stored in the DataCache. Numbers are modelled as
integers (no claim involves fractional values). JS `undefined` is not a
JSON value; where the source compares with `== null` (matching both `null`
and `undefined`) the embedding uses `Option Value` with `none` for
`undefined` and `some .vnull` for `null`. -/
inductive Value where
  | vnull
  | vbool (b : Bool)
  | vnum (n : Int)
  | vstr (s : String)
  | varr (elems : List Value)
  | vobj (entries : List (String × Value))

/- Structural equality on values, embedding lodash `isEqual` as used by
`DataCache.updateFromArray` (the `_.eq` no-op check). Object entries are
compared in order; lodash ignores key order, but in every claim the
equality check only ever fires on identical documents, so the ordered
comparison is adequate. -/
mutual

def Value.beq : Value → Value → Bool
  | .vnull, .vnull => true
  | .vbool a, .vbool b => a == b
  | .vnum a, .vnum b => a == b
  | .vstr a, .vstr b => a == b
  | .varr a, .varr b => Value.beqList a b
  | .vobj a, .vobj b => Value.beqEntries a b
  | _, _ => false

def Value.beqList : List Value → List Value → Bool
  | [], [] => true
  | a :: as, b :: bs => Value.beq a b && Value.beqList as bs
  | _, _ => false

def Value.beqEntries : List (String × Value) → List (String × Value) → Bool
  | [], [] => true
  | (ka, va) :: as, (kb, vb) :: bs =>
      ka == kb && Value.beq va vb && Value.beqEntries as bs
  | _, _ => false

end

mutual

theorem Value.beq_sound : ∀ (a b : Value), Value.beq a b = true → a = b
  | .vnull, .vnull, _ => rfl
  | .vnull, .vbool _, h => nomatch h
  | .vnull, .vnum _, h => nomatch h
  | .vnull, .vstr _, h => nomatch h
  | .vnull, .varr _, h => nomatch h
  | .vnull, .vobj _, h => nomatch h
  | .vbool _, .vnull, h => nomatch h
  | .vbool a, .vbool b, h => by
      simp only [Value.beq, beq_iff_eq] at h; exact h ▸ rfl
  | .vbool _, .vnum _, h => nomatch h
  | .vbool _, .vstr _, h => nomatch h
  | .vbool _, .varr _, h => nomatch h
  | .vbool _, .vobj _, h => nomatch h
  | .vnum _, .vnull, h => nomatch h
  | .vnum _, .vbool _, h => nomatch h
  | .vnum a, .vnum b, h => by
      simp only [Value.beq, beq_iff_eq] at h; exact h ▸ rfl
  | .vnum _, .vstr _, h => nomatch h
  | .vnum _, .varr _, h => nomatch h
  | .vnum _, .vobj _, h => nomatch h
  | .vstr _, .vnull, h => nomatch h
  | .vstr _, .vbool _, h => nomatch h
  | .vstr _, .vnum _, h => nomatch h
  | .vstr a, .vstr b, h => by
      simp only [Value.beq, beq_iff_eq] at h; exact h ▸ rfl
  | .vstr _, .varr _, h => nomatch h
  | .vstr _, .vobj _, h => nomatch h
  | .varr _, .vnull, h => nomatch h
  | .varr _, .vbool _, h => nomatch h
  | .varr _, .vnum _, h => nomatch h
  | .varr _, .vstr _, h => nomatch h
  | .varr a, .varr b, h => by
      have := Value.beqList_sound a b h
      exact this ▸ rfl
  | .varr _, .vobj _, h => nomatch h
  | .vobj _, .vnull, h => nomatch h
  | .vobj _, .vbool _, h => nomatch h
  | .vobj _, .vnum _, h => nomatch h
  | .vobj _, .vstr _, h => nomatch h
  | .vobj _, .varr _, h => nomatch h
  | .vobj a, .vobj b, h => by
      have := Value.beqEntries_sound a b h
      exact this ▸ rfl

theorem Value.beqList_sound : ∀ (a b : List Value), Value.beqList a b = true → a = b
  | [], [], _ => rfl
  | [], _ :: _, h => nomatch h
  | _ :: _, [], h => nomatch h
  | a :: as, b :: bs, h => by
      simp only [Value.beqList, Bool.and_eq_true] at h
      have h1 := Value.beq_sound a b h.1
      have h2 := Value.beqList_sound as bs h.2
      rw [h1, h2]

theorem Value.beqEntries_sound :
    ∀ (a b : List (String × Value)), Value.beqEntries a b = true → a = b
  | [], [], _ => rfl
  | [], _ :: _, h => nomatch h
  | _ :: _, [], h => nomatch h
  | (ka, va) :: as, (kb, vb) :: bs, h => by
      simp only [Value.beqEntries, Bool.and_eq_true, beq_iff_eq] at h
      have h1 := Value.beq_sound va vb h.1.2
      have h2 := Value.beqEntries_sound as bs h.2
      rw [h.1.1, h1, h2]

end

/-! ## JS object primitives

JS plain objects keyed by strings, as insertion-ordered association lists.
Property assignment `o[k] = v` keeps the position of an existing key and
appends a new key at the end; `delete o[k]` removes the key (keys are
unique in objects built by assignment, so removing every entry with the
key is equivalent). -/

/-- Read a property: `o[k]`, `undefined` (`none`) when absent. -/
def objGet {α : Type} (kvs : List (String × α)) (k : String) : Option α :=
  (kvs.find? (fun e => e.1 == k)).map (·.2)

/-- Property assignment `o[k] = v`: replace in place or append at end. -/
def objInsert {α : Type} : List (String × α) → String → α → List (String × α)
  | [], k, v => [(k, v)]
  | e :: rest, k, v => if e.1 == k then (k, v) :: rest else e :: objInsert rest k v

/-- Property deletion `delete o[k]`. -/
def objDelete {α : Type} (kvs : List (String × α)) (k : String) :
    List (String × α) :=
  kvs.filter (fun e => e.1 != k)

theorem objGet_objInsert_self {α : Type} (k : String) (v : α) :
    ∀ kvs, objGet (objInsert kvs k v) k = some v := by
  intro kvs
  induction kvs with
  | nil => simp [objInsert, objGet]
  | cons e rest ih =>
    by_cases he : (e.1 == k) = true
    · simp [objInsert, he, objGet]
    · simp only [objInsert, he, if_false, Bool.false_eq_true]
      simpa [objGet, List.find?_cons, he] using ih

theorem objGet_objDelete_self {α : Type} (k : String) :
    ∀ kvs : List (String × α), objGet (objDelete kvs k) k = none := by
  intro kvs
  induction kvs with
  | nil => rfl
  | cons e rest ih =>
    simp only [objDelete, List.filter_cons] at ih ⊢
    by_cases he : (e.1 == k) = true
    · have : (e.1 != k) = false := by simp [bne, he]
      rw [this]
      simpa using ih
    · have hne : (e.1 == k) = false := by
        cases hb : (e.1 == k) with
        | true => exact absurd hb he
        | false => rfl
      have : (e.1 != k) = true := by simp [bne, hne]
      rw [this]
      simp only [if_true]
      simp only [objGet, List.find?_cons, hne] at ih ⊢
      exact ih

/-- An assignment result is never the empty object. -/
theorem objInsert_ne_nil {α : Type} (kvs : List (String × α)) (k : String) (v : α) :
    objInsert kvs k v ≠ [] := by
  cases kvs with
  | nil => simp [objInsert]
  | cons e rest =>
    by_cases he : (e.1 == k) = true <;> simp [objInsert, he]

/-! ## Topic codec (common.js)

`encodeTopicElement` and `decodeTopicElement` are sequences of JS global
string replaces; `jsReplaceAllGo` embeds `String.prototype.replace` with a
global literal pattern: scan left to right, replacing each non-overlapping
occurrence. The fuel argument (one unit per input character) makes the
recursion structural; `jsReplaceAll` supplies sufficient fuel. -/

def jsReplaceAllGo (pat rep : List Char) : Nat → List Char → List Char
  | _, [] => []
  | 0, l => l
  | n + 1, c :: rest =>
    if pat ≠ [] ∧ pat.isPrefixOf (c :: rest) then
      rep ++ jsReplaceAllGo pat rep n ((c :: rest).drop pat.length)
    else
      c :: jsReplaceAllGo pat rep n rest

def jsReplaceAll (pat rep l : List Char) : List Char :=
  jsReplaceAllGo pat rep l.length l

theorem jsReplaceAllGo_fuel (pat rep : List Char) :
    ∀ (m n : Nat) (l : List Char), l.length ≤ m → l.length ≤ n →
      jsReplaceAllGo pat rep m l = jsReplaceAllGo pat rep n l := by
  intro m
  induction m with
  | zero =>
    intro n l hm _
    have : l = [] := List.length_eq_zero.mp (Nat.le_zero.mp hm)
    subst this
    cases n <;> rfl
  | succ m ih =>
    intro n l hm hn
    cases l with
    | nil => cases n <;> rfl
    | cons c rest =>
      cases n with
      | zero => simp at hn
      | succ n =>
        have hm' : rest.length ≤ m := by simp only [List.length_cons] at hm; omega
        have hn' : rest.length ≤ n := by simp only [List.length_cons] at hn; omega
        simp only [jsReplaceAllGo]
        split
        · rename_i hcond
          have hp : 1 ≤ pat.length := by
            cases hpat : pat with
            | nil => exact absurd hpat hcond.1
            | cons _ _ => simp
          have hd : ((c :: rest).drop pat.length).length ≤ m := by
            simp only [List.length_drop, List.length_cons]; omega
          have hd' : ((c :: rest).drop pat.length).length ≤ n := by
            simp only [List.length_drop, List.length_cons]; omega
          rw [ih n _ hd hd']
        · rw [ih n rest hm' hn']

theorem jsReplaceAll_nil (pat rep : List Char) : jsReplaceAll pat rep [] = [] := rfl

theorem jsReplaceAll_pos (pat rep : List Char) (c : Char) (rest : List Char)
    (h1 : pat ≠ []) (h2 : pat.isPrefixOf (c :: rest) = true) :
    jsReplaceAll pat rep (c :: rest) =
      rep ++ jsReplaceAll pat rep ((c :: rest).drop pat.length) := by
  have hp : 1 ≤ pat.length := by
    cases hpat : pat with
    | nil => exact absurd hpat h1
    | cons _ _ => simp
  show jsReplaceAllGo pat rep (rest.length + 1) (c :: rest) = _
  simp only [jsReplaceAllGo]
  rw [if_pos ⟨h1, h2⟩]
  congr 1
  exact jsReplaceAllGo_fuel pat rep rest.length _ _
    (by simp only [List.length_drop, List.length_cons]; omega) (Nat.le_refl _)

theorem jsReplaceAll_neg (pat rep : List Char) (c : Char) (rest : List Char)
    (h : ¬ (pat ≠ [] ∧ pat.isPrefixOf (c :: rest) = true)) :
    jsReplaceAll pat rep (c :: rest) = c :: jsReplaceAll pat rep rest := by
  show jsReplaceAllGo pat rep (rest.length + 1) (c :: rest) = _
  simp only [jsReplaceAllGo]
  rw [if_neg h]
  rfl

/-- Embeds `x.replace(/%/g, '%25').replace(/\//g, '%2F')` (common.js). -/
def encodeTopicElement (x : String) : String :=
  ⟨jsReplaceAll ['/'] ['%', '2', 'F'] (jsReplaceAll ['%'] ['%', '2', '5'] x.data)⟩

/-- Embeds `x.replace(/%25/g, '%').replace(/%2F/g, '\/')` (common.js). -/
def decodeTopicElement (x : String) : String :=
  ⟨jsReplaceAll ['%', '2', 'F'] ['/'] (jsReplaceAll ['%', '2', '5'] ['%'] x.data)⟩

example : encodeTopicElement "a/b%" = "a%2Fb%25" := by decide
example : decodeTopicElement "a%2Fb%25" = "a/b%" := by decide
example : decodeTopicElement (encodeTopicElement "%2F") = "/" := by decide

/-! ## Characterization of the codec replaces (for claim C2)

`encPercent` / `encSlash` restate single-character global replaces as
per-character expansions; `encBothChars` is their composition and
`slashExpand` the intermediate form reached by decoding `%25` first. -/

def encPercent : List Char → List Char
  | [] => []
  | c :: l => (if c = '%' then ['%', '2', '5'] else [c]) ++ encPercent l

def encSlash : List Char → List Char
  | [] => []
  | c :: l => (if c = '/' then ['%', '2', 'F'] else [c]) ++ encSlash l

def encBothChars : List Char → List Char
  | [] => []
  | c :: l =>
      (if c = '%' then ['%', '2', '5'] else if c = '/' then ['%', '2', 'F'] else [c])
        ++ encBothChars l

def slashExpand : List Char → List Char
  | [] => []
  | c :: l => (if c = '/' then ['%', '2', 'F'] else [c]) ++ slashExpand l

/-- Whether `pat` occurs as a contiguous substring. -/
def hasSub (pat : List Char) : List Char → Bool
  | [] => pat.isEmpty
  | c :: rest => pat.isPrefixOf (c :: rest) || hasSub pat rest

theorem not_replaceCond_of_not_sub {pat : List Char} {c : Char} {rest : List Char}
    (h : pat.isPrefixOf (c :: rest) = false) :
    ¬ (pat ≠ [] ∧ pat.isPrefixOf (c :: rest) = true) := by
  intro hc
  rw [h] at hc
  exact Bool.noConfusion hc.2

theorem jsReplaceAll_single (c : Char) (rep : List Char) :
    ∀ l, jsReplaceAll [c] rep l =
      match l with
      | [] => []
      | a :: rest => (if a = c then rep else [a]) ++ jsReplaceAll [c] rep rest := by
  intro l
  cases l with
  | nil => rfl
  | cons a rest =>
    by_cases ha : a = c
    · subst ha
      rw [jsReplaceAll_pos]
      · simp
      · simp
      · simp [List.isPrefixOf]
    · rw [jsReplaceAll_neg]
      · simp [ha]
      · apply not_replaceCond_of_not_sub
        simp [List.isPrefixOf, Ne.symm ha]

theorem replacePercent_eq_encPercent :
    ∀ l, jsReplaceAll ['%'] ['%', '2', '5'] l = encPercent l := by
  intro l
  induction l with
  | nil => rfl
  | cons a rest ih =>
    rw [jsReplaceAll_single]
    simp only [encPercent]
    rw [ih]

theorem replaceSlash_eq_encSlash :
    ∀ l, jsReplaceAll ['/'] ['%', '2', 'F'] l = encSlash l := by
  intro l
  induction l with
  | nil => rfl
  | cons a rest ih =>
    rw [jsReplaceAll_single]
    simp only [encSlash]
    rw [ih]

theorem encSlash_append (a b : List Char) :
    encSlash (a ++ b) = encSlash a ++ encSlash b := by
  induction a with
  | nil => rfl
  | cons c l ih => simp [encSlash, ih]

theorem encSlash_encPercent (l : List Char) :
    encSlash (encPercent l) = encBothChars l := by
  induction l with
  | nil => rfl
  | cons c rest ih =>
    simp only [encPercent, encBothChars, encSlash_append]
    rw [ih]
    by_cases hc : c = '%'
    · subst hc
      simp [encSlash]
    · by_cases hs : c = '/'
      · subst hs
        simp [encSlash]
      · simp [encSlash, hc, hs]

theorem decodePercent_encBoth (l : List Char) :
    jsReplaceAll ['%', '2', '5'] ['%'] (encBothChars l) = slashExpand l := by
  induction l with
  | nil => rfl
  | cons c rest ih =>
    by_cases hc : c = '%'
    · subst hc
      have h1 : encBothChars ('%' :: rest) = '%' :: '2' :: '5' :: encBothChars rest := rfl
      have h2 : slashExpand ('%' :: rest) = '%' :: slashExpand rest := rfl
      rw [h1, h2]
      rw [jsReplaceAll_pos _ _ _ _ (by simp)
        (by simp [List.isPrefixOf])]
      simp only [List.length_cons, List.length_nil, List.drop_succ_cons, List.drop_zero]
      rw [ih]
      rfl
    · by_cases hs : c = '/'
      · subst hs
        have h1 : encBothChars ('/' :: rest) = '%' :: '2' :: 'F' :: encBothChars rest := rfl
        have h2 : slashExpand ('/' :: rest) = '%' :: '2' :: 'F' :: slashExpand rest := rfl
        rw [h1, h2]
        rw [jsReplaceAll_neg _ _ _ _ (not_replaceCond_of_not_sub
          (by simp [List.isPrefixOf, show (('5' : Char) == 'F') = false from by decide]))]
        rw [jsReplaceAll_neg _ _ _ _ (not_replaceCond_of_not_sub
          (by simp [List.isPrefixOf, show (('%' : Char) == '2') = false from by decide]))]
        rw [jsReplaceAll_neg _ _ _ _ (not_replaceCond_of_not_sub
          (by simp [List.isPrefixOf, show (('%' : Char) == 'F') = false from by decide]))]
        rw [ih]
      · have h1 : encBothChars (c :: rest) = c :: encBothChars rest := by
          simp [encBothChars, hc, hs]
        have h2 : slashExpand (c :: rest) = c :: slashExpand rest := by
          simp [slashExpand, hs]
        rw [h1, h2]
        rw [jsReplaceAll_neg _ _ _ _ (not_replaceCond_of_not_sub
          (by simp [List.isPrefixOf, beq_eq_false_iff_ne, Ne.symm hc]))]
        rw [ih]

theorem isPrefixF_slashExpand (l : List Char) (h : List.isPrefixOf ['F'] l = false) :
    List.isPrefixOf ['F'] (slashExpand l) = false := by
  cases l with
  | nil => rfl
  | cons e l3 =>
    by_cases he : e = '/'
    · subst he
      rfl
    · have h1 : slashExpand (e :: l3) = e :: slashExpand l3 := by
        simp [slashExpand, he]
      rw [h1]
      simp only [List.isPrefixOf, Bool.and_eq_false_iff] at h ⊢
      rcases h with h | h
      · exact Or.inl h
      · exact absurd h (by simp [List.isPrefixOf])

theorem isPrefix2F_slashExpand (l : List Char) (h : List.isPrefixOf ['2', 'F'] l = false) :
    List.isPrefixOf ['2', 'F'] (slashExpand l) = false := by
  cases l with
  | nil => rfl
  | cons d l2 =>
    by_cases hd : d = '/'
    · subst hd
      rfl
    · have h1 : slashExpand (d :: l2) = d :: slashExpand l2 := by
        simp [slashExpand, hd]
      rw [h1]
      by_cases h2 : d = '2'
      · subst h2
        simp only [List.isPrefixOf, show (('2' : Char) == '2') = true from by decide,
          Bool.true_and] at h ⊢
        exact isPrefixF_slashExpand l2 h
      · simp [List.isPrefixOf, beq_eq_false_iff_ne, Ne.symm h2]

theorem decodeSlash_slashExpand :
    ∀ l, hasSub ['%', '2', 'F'] l = false →
      jsReplaceAll ['%', '2', 'F'] ['/'] (slashExpand l) = l := by
  intro l
  induction l with
  | nil => intro _; rfl
  | cons c rest ih =>
    intro h
    simp only [hasSub, Bool.or_eq_false_iff] at h
    by_cases hc : c = '/'
    · subst hc
      have h1 : slashExpand ('/' :: rest) = '%' :: '2' :: 'F' :: slashExpand rest := rfl
      rw [h1]
      rw [jsReplaceAll_pos _ _ _ _ (by simp) (by simp [List.isPrefixOf])]
      simp only [List.length_cons, List.length_nil, List.drop_succ_cons, List.drop_zero]
      rw [ih h.2]
      rfl
    · have h1 : slashExpand (c :: rest) = c :: slashExpand rest := by
        simp [slashExpand, hc]
      rw [h1]
      have hnp : List.isPrefixOf ['%', '2', 'F'] (c :: slashExpand rest) = false := by
        by_cases hpc : c = '%'
        · subst hpc
          simp only [List.isPrefixOf, show (('%' : Char) == '%') = true from by decide,
            Bool.true_and] at h ⊢
          exact isPrefix2F_slashExpand rest h.1
        · simp [List.isPrefixOf, beq_eq_false_iff_ne, Ne.symm hpc]
      rw [jsReplaceAll_neg _ _ _ _ (not_replaceCond_of_not_sub hnp)]
      rw [ih h.2]

theorem decode_encode_of_no2F (s : String)
    (h : hasSub ['%', '2', 'F'] s.data = false) :
    decodeTopicElement (encodeTopicElement s) = s := by
  unfold encodeTopicElement decodeTopicElement
  show String.mk (jsReplaceAll ['%', '2', 'F'] ['/']
    (jsReplaceAll ['%', '2', '5'] ['%']
      (jsReplaceAll ['/'] ['%', '2', 'F'] (jsReplaceAll ['%'] ['%', '2', '5'] s.data)))) = s
  rw [replacePercent_eq_encPercent, replaceSlash_eq_encSlash, encSlash_encPercent,
    decodePercent_encBoth, decodeSlash_slashExpand _ h]

/-- Claim C2 (counterexample): the claim asserts
`decodeTopicElement (encodeTopicElement s) = s` for every segment string
with arbitrary characters; it fails at the segment `"%2F"`, whose encoding
`"%252F"` decodes to `"/"` because `decodeTopicElement` replaces `%25`
before `%2F`, manufacturing a fresh `%2F` occurrence. -/
theorem claim2_counterexample :
    encodeTopicElement "%2F" = "%252F" ∧
    decodeTopicElement (encodeTopicElement "%2F") = "/" ∧
    decodeTopicElement (encodeTopicElement "%2F") ≠ "%2F" := by
  refine ⟨by decide, by decide, by decide⟩

/-- Claim C2 (amended): for every segment string that does not contain the
substring `%2F`, decoding after encoding returns the original segment;
encode replaces every `%` with `%25` and then every `/` with `%2F`, and on
such segments decode inverts this. -/
theorem claim2_roundtrip_amended (s : String)
    (h : hasSub ['%', '2', 'F'] s.data = false) :
    decodeTopicElement (encodeTopicElement s) = s :=
  decode_encode_of_no2F s h

/-- Witness for `claim2_roundtrip_amended` at the segment `"a%25/b"`. -/
theorem claim2_roundtrip_amended_witness :
    hasSub ['%', '2', 'F'] "a%25/b".data = false ∧
    decodeTopicElement (encodeTopicElement "a%25/b") = "a%25/b" :=
  ⟨by decide, claim2_roundtrip_amended "a%25/b" (by decide)⟩

/-! ## Path and topic conversion (common.js `pathToTopic` / `topicToPath`)

String splitting, joining, and first-character tests are implemented over
the character list (`String.data`) so that every function reduces on
concrete inputs; they embed JS `split('/')`, `join('/')`, `x[0] == c` /
`startsWith` and `slice(1)` for these ASCII delimiters. -/

/-- JS `x[0] == c` (also `x.startsWith(c)` for a one-character `c`). -/
def strHead (s : String) (c : Char) : Bool :=
  match s.data with
  | [] => false
  | a :: _ => a == c

/-- JS `x.slice(1)`. -/
def strDropOne (s : String) : String :=
  ⟨s.data.drop 1⟩

/-- JS `topic.split('/')` over the character list. -/
def splitSlash : List Char → List (List Char)
  | [] => [[]]
  | c :: rest =>
    let r := splitSlash rest
    if c = '/' then [] :: r
    else
      match r with
      | [] => [[c]]
      | h :: t => (c :: h) :: t

/-- JS `parts.join('/')` over character lists. -/
def joinSlash : List (List Char) → List Char
  | [] => []
  | [x] => x
  | x :: y :: rest => x ++ '/' :: joinSlash (y :: rest)

/-- Embeds `dropWildcardIds` inside `pathToTopic`: a segment starting with
`+` is reduced to a bare `+` on the wire. -/
def dropWildcardIds (x : String) : String :=
  if strHead x '+' then "+" else x

/-- Embeds `pathToTopic` (common.js): leading slash, segments
percent-encoded and joined with `/`. -/
def pathToTopic (pathArray : List String) : String :=
  ⟨'/' :: joinSlash (pathArray.map (fun x => (encodeTopicElement (dropWildcardIds x)).data))⟩

/-- Embeds `topicToPath` (common.js): split on `/`, decode each piece,
then strip one leading and one trailing empty segment (leading and
trailing slash). -/
def topicToPath (topic : String) : List String :=
  let path := (splitSlash topic.data).map (fun l => decodeTopicElement ⟨l⟩)
  let path :=
    match path with
    | [] => []
    | p0 :: rest => if p0.data.isEmpty then rest else p0 :: rest
  match path.getLast? with
  | some last => if last.data.isEmpty then path.dropLast else path
  | none => path

example : topicToPath "/a/b" = ["a", "b"] := by decide
example : topicToPath "/a/b/" = ["a", "b"] := by decide
example : topicToPath "a%2Fb/c" = ["a/b", "c"] := by decide
example : pathToTopic ["a", "b"] = "/a/b" := by decide
example : pathToTopic ["+dev", "x%y"] = "/+/x%25y" := by decide
example : topicToPath "" = [] := by decide

/-! ## Topic matching (common.js `topicMatch`)

The JS inner helper `byArray` returns `true`, `false`, or an object of
named-wildcard bindings; when a `+`-segment matches, the binding object is
built with `Object.assign({name: value}, sub)` (target key first, then the
sub-result's keys, which override on collision). -/

inductive JsMatch where
  | jfalse
  | jtrue
  | jbind (m : List (String × String))
deriving DecidableEq, Repr

/-- Embeds `Object.assign({k: v}, sub)` for a match sub-result `sub`. -/
def assignBinding (k v : String) : JsMatch → JsMatch
  | .jfalse => .jfalse
  | .jtrue => .jbind [(k, v)]
  | .jbind m => .jbind (m.foldl (fun acc e => objInsert acc e.1 e.2) [(k, v)])

/-- Embeds `byArray` inside `topicMatch` (common.js): `s` is the selector
path, `p` the topic path. An exhausted selector or topic, or a `#` head,
succeeds; a literal head must match; a `+` head matches one segment and
contributes a binding. -/
def byArray : List String → List String → JsMatch
  | [], _ => .jtrue
  | s0 :: srest, p =>
    if strHead s0 '#' then .jtrue
    else
      match p with
      | [] => .jtrue
      | p0 :: prest =>
        if s0 = p0 then byArray srest prest
        else if strHead s0 '+' then
          assignBinding (strDropOne s0) p0 (byArray srest prest)
        else .jfalse

/-- Embeds `topicMatch(selector, topic)` (common.js). -/
def topicMatch (selector topic : String) : JsMatch :=
  byArray (topicToPath selector) (topicToPath topic)

example : topicMatch "/a/+dev/c" "/a/d1/c" = .jbind [("dev", "d1")] := by decide
example : topicMatch "/a/#" "/a/b/c" = .jtrue := by decide
example : topicMatch "/a/b" "/a/c" = .jfalse := by decide

/-- Embeds `isPrefixOf` (common.js): segment-wise equality of the prefix
array with the start of the array. -/
def isPrefixOf : List String → List String → Bool
  | [], _ => true
  | _ :: _, [] => false
  | a :: as, b :: bs => a == b && isPrefixOf as bs

theorem byArray_of_topic_shorter :
    ∀ (p s : List String), isPrefixOf p s = true → p.length < s.length →
      byArray s p = .jtrue := by
  intro p
  induction p with
  | nil =>
    intro s _ hlen
    cases s with
    | nil => simp at hlen
    | cons s0 srest =>
      simp only [byArray]
      split
      · rfl
      · rfl
  | cons p0 prest ih =>
    intro s hpre hlen
    cases s with
    | nil => simp [isPrefixOf] at hpre
    | cons s0 srest =>
      simp only [isPrefixOf, Bool.and_eq_true, beq_iff_eq] at hpre
      simp only [List.length_cons] at hlen
      simp only [byArray]
      split
      · rfl
      · rw [if_pos hpre.1.symm]
        exact ih srest hpre.2 (by omega)

/-- Claim C5 (counterexample): the claim asserts that for a selector with
no `#` segment, a topic with fewer segments than the selector never
matches; but `topicMatch "/a/b" "/a"` succeeds (returns `true`), because
`byArray` treats an exhausted topic path as a successful prefix match (the
length check in the source is commented out). -/
theorem claim5_counterexample :
    topicMatch "/a/b" "/a" = .jtrue ∧ topicMatch "/a/b" "/a" ≠ .jfalse := by
  refine ⟨by decide, by decide⟩

/-- Claim C5 (amended): for every selector and every topic whose path is a
proper segment-wise prefix of the selector's path, `topicMatch` succeeds
with `true` (prefix semantics) rather than returning `false`; a shorter
topic never causes a failure by itself. -/
theorem claim5_shorter_topic_amended (selector topic : String)
    (h1 : isPrefixOf (topicToPath topic) (topicToPath selector) = true)
    (h2 : (topicToPath topic).length < (topicToPath selector).length) :
    topicMatch selector topic = .jtrue :=
  byArray_of_topic_shorter (topicToPath topic) (topicToPath selector) h1 h2

/-- Witness for `claim5_shorter_topic_amended` at selector `/a/b`, topic `/a`. -/
theorem claim5_shorter_topic_amended_witness :
    isPrefixOf (topicToPath "/a") (topicToPath "/a/b") = true ∧
    (topicToPath "/a").length < (topicToPath "/a/b").length ∧
    topicMatch "/a/b" "/a" = .jtrue :=
  ⟨by decide, by decide, claim5_shorter_topic_amended "/a/b" "/a" (by decide) (by decide)⟩

/-! ## Document operations (lodash `get` / `set` / `unset` / `isEmpty`)

Embedded over the spec's data model: interior nodes are string-keyed maps;
arrays and primitives are atomic for path traversal (lodash's descent into
arrays via numeric keys, and JS prototype properties, are outside the
modelled domain; the DataCache paths of the claims traverse map nodes). -/

/-- Path traversal: `getPath v p` resolves `p` inside `v`; the empty path
resolves to `v` itself. -/
def getPath : Value → List String → Option Value
  | v, [] => some v
  | .vobj kvs, k :: rest =>
    match objGet kvs k with
    | some c => getPath c rest
    | none => none
  | _, _ :: _ => none

/-- Embeds lodash `_.get(obj, path)`: the empty path yields `undefined`
(lodash returns `undefined` when `path.length == 0`). -/
def lodashGet (v : Value) (p : List String) : Option Value :=
  if p.isEmpty then none else getPath v p

/-- Embeds lodash `_.set(obj, path, value)`: creates missing intermediate
objects, replaces non-object intermediates, assigns at the final key; a
non-object root or an empty path leaves the value unchanged. -/
def setPath : Value → List String → Value → Value
  | v, [], _ => v
  | .vobj kvs, k :: rest, x =>
    match rest with
    | [] => .vobj (objInsert kvs k x)
    | _ :: _ =>
      let base :=
        match objGet kvs k with
        | some (.vobj ckvs) => Value.vobj ckvs
        | _ => Value.vobj []
      .vobj (objInsert kvs k (setPath base rest x))
  | v, _ :: _, _ => v

/-- Embeds lodash `_.unset(obj, path)`: deletes the key at the end of the
path when the path resolves through objects; otherwise no change. -/
def unsetPath : Value → List String → Value
  | v, [] => v
  | .vobj kvs, [k] => .vobj (objDelete kvs k)
  | .vobj kvs, k :: rest =>
    match objGet kvs k with
    | some c => .vobj (objInsert kvs k (unsetPath c rest))
    | none => .vobj kvs
  | v, _ :: _ => v

/-- Embeds lodash `_.isEmpty`: `null`, booleans and numbers are empty;
strings and arrays are empty when their length is zero; objects when they
have no keys. -/
def jsIsEmpty : Value → Bool
  | .vnull => true
  | .vbool _ => true
  | .vnum _ => true
  | .vstr s => s.data.isEmpty
  | .varr xs => xs.isEmpty
  | .vobj kvs => kvs.isEmpty

/-- Embeds the repo's `unset(obj, path)` helper (DataCache.js): lodash
`_.unset`, then recursively remove the parent while it is empty
(`_.isEmpty`; a missing parent, lodash `undefined`, is empty too). The
fuel equals the path length, one unit per `dropLast` step. -/
def unsetFrom : Nat → Value → List String → Value
  | _, doc, [] => doc
  | 0, doc, _ :: _ => doc
  | fuel + 1, doc, k :: rest =>
    let doc1 := unsetPath doc (k :: rest)
    let parentPath := (k :: rest).dropLast
    let parentEmpty :=
      if parentPath.isEmpty then jsIsEmpty doc1
      else
        match getPath doc1 parentPath with
        | some par => jsIsEmpty par
        | none => true
    if parentEmpty then unsetFrom fuel doc1 parentPath else doc1

/-- The repo's `unset` helper with its fuel instantiated. -/
def unset (doc : Value) (p : List String) : Value :=
  unsetFrom p.length doc p

/-! ## DataCache.updateFromArray (DataCache.js) -/

/-- JS `value instanceof Object` for JSON data: objects and arrays. -/
def jsInstanceOfObject : Value → Bool
  | .vobj _ => true
  | .varr _ => true
  | _ => false

/-- Result of `updateFromArray`: the new document, the returned flat
changes, and the listener firing — `none` when the early no-op returns
skip the listeners, otherwise the pair of the atomic-listener argument
`obj` and the flat-listener argument `flatChanges`. -/
structure UpdateResult where
  doc : Value
  changes : List (String × Value)
  fired : Option (List (String × Value) × List (String × Value))

/-! ## Flattener (common.js `toFlatObject`)

`toFlatObject(obj, prefix, rtv)` iterates the entries of `obj` with lodash
`forEach` (array entries get their numeric index as key, stringified with
JS `String(key)`), recurses into plain objects and arrays, and assigns
each other value into the accumulator object at the percent-encoded joined
topic. `natToString` embeds JS `String(index)` (decimal digits), fuelled
so it reduces on concrete inputs. -/

def natToStrGo : Nat → Nat → List Char
  | 0, n => [Nat.digitChar (n % 10)]
  | fuel + 1, n =>
    if n < 10 then [Nat.digitChar n]
    else natToStrGo fuel (n / 10) ++ [Nat.digitChar (n % 10)]

def natToString (n : Nat) : String :=
  ⟨natToStrGo n n⟩

example : natToString 0 = "0" := by decide
example : natToString 12 = "12" := by decide

mutual

def toFlatObjectFrom : Value → List String → List (String × Value) → List (String × Value)
  | .vobj kvs, prefixPath, rtv => flatFoldEntries kvs prefixPath rtv
  | .varr xs, prefixPath, rtv => flatFoldElems xs 0 prefixPath rtv
  | _, _, rtv => rtv

def flatFoldEntries : List (String × Value) → List String → List (String × Value) → List (String × Value)
  | [], _, rtv => rtv
  | (k, v) :: rest, prefixPath, rtv =>
      flatFoldEntries rest prefixPath (flatVisit v (prefixPath ++ [k]) rtv)

def flatFoldElems : List Value → Nat → List String → List (String × Value) → List (String × Value)
  | [], _, _, rtv => rtv
  | v :: rest, i, prefixPath, rtv =>
      flatFoldElems rest (i + 1) prefixPath (flatVisit v (prefixPath ++ [natToString i]) rtv)

def flatVisit : Value → List String → List (String × Value) → List (String × Value)
  | .vobj kvs, newPrefix, rtv => flatFoldEntries kvs newPrefix rtv
  | .varr xs, newPrefix, rtv => flatFoldElems xs 0 newPrefix rtv
  | v, newPrefix, rtv => objInsert rtv (pathToTopic newPrefix) v

end

/-- Embeds `toFlatObject(obj)` (common.js) with the default empty prefix
and accumulator. -/
def toFlatObject (v : Value) : List (String × Value) :=
  toFlatObjectFrom v [] []

example :
    toFlatObject (.vobj [("a", .vobj [("b", .vnum 1), ("c", .vnum 2)]), ("d", .vnum 3)]) =
      [("/a/b", .vnum 1), ("/a/c", .vnum 2), ("/d", .vnum 3)] := rfl

/-- Embeds the construction of `flatChanges` in `updateFromArray`
(DataCache.js): flatten an object-like value and prefix each flat key with
the topic (JS template `topic + flatKey`), else the single-entry object
`obj` itself. -/
def flatChangesFor (topic : String) (value : Value) : List (String × Value) :=
  if jsInstanceOfObject value then
    (toFlatObject value).foldl (fun acc e => objInsert acc (topic ++ e.1) e.2) []
  else
    [(topic, value)]

/-- Embeds `DataCache.updateFromArray(path, value)` (DataCache.js): read
the current value with lodash `get`; a `null` (or `undefined`) incoming
value deletes via the pruning `unset` unless nothing (or `null`) is
stored; otherwise skip when deep-equal, else lodash `set`; on a change,
compute the flat changes and fire atomic then flat listeners. -/
def updateFromArray (doc : Value) (path : List String) (value : Value) : UpdateResult :=
  let current := lodashGet doc path
  match value with
  | .vnull =>
    match current with
    | none => ⟨doc, [], none⟩
    | some .vnull => ⟨doc, [], none⟩
    | some _ =>
      let doc1 := unset doc path
      let topic := pathToTopic path
      ⟨doc1, [(topic, .vnull)], some ([(topic, .vnull)], [(topic, .vnull)])⟩
  | v =>
    if (match current with | some c => Value.beq c v | none => false) then
      ⟨doc, [], none⟩
    else
      let doc1 := setPath doc path v
      let topic := pathToTopic path
      let flat := flatChangesFor topic v
      ⟨doc1, flat, some ([(topic, v)], flat)⟩

/-- Embeds `DataCache.get(path)` (DataCache.js): the whole document for
the empty path, else lodash `get`. -/
def dcGet (doc : Value) (path : List String) : Option Value :=
  if path.isEmpty then some doc else getPath doc path

/-- Embeds `DataCache.updateFromTopic(topic, value)` (DataCache.js). -/
def updateFromTopic (doc : Value) (topic : String) (value : Value) : UpdateResult :=
  updateFromArray doc (topicToPath topic) value

example :
    (updateFromArray (.vobj []) ["a", "b"] (.vnum 7)).doc =
      .vobj [("a", .vobj [("b", .vnum 7)])] := rfl

example :
    (updateFromArray (.vobj [("a", .vobj [("b", .vnum 7)])]) ["a", "b"] .vnull).doc =
      .vobj [] := rfl

example :
    (updateFromArray (.vobj [("a", .vobj [("b", .vnum 7), ("c", .vnum 1)])]) ["a", "b"] .vnull).doc =
      .vobj [("a", .vobj [("c", .vnum 1)])] := rfl

/-- Claim C10 (confirmed): for every path at which the cache holds no
value (`get` is `undefined`) — and likewise when it holds `null` —
`update(p, null)` returns an empty change set, fires no atomic or flat
listeners, and leaves the stored document unchanged; the early return in
`updateFromArray` treats a stored `null` like an absent value. -/
theorem claim10_null_delete_noop (doc : Value) (p : List String)
    (h : dcGet doc p = none ∨ dcGet doc p = some .vnull) :
    updateFromArray doc p .vnull = ⟨doc, [], none⟩ := by
  cases p with
  | nil => rfl
  | cons k rest =>
    have hd : dcGet doc (k :: rest) = getPath doc (k :: rest) := by
      simp [dcGet]
    rw [hd] at h
    show updateFromArray doc (k :: rest) Value.vnull = _
    unfold updateFromArray
    have hg : lodashGet doc (k :: rest) = getPath doc (k :: rest) := by
      simp [lodashGet]
    rcases h with h | h
    · simp only [hg, h]
    · simp only [hg, h]

/-- Witness for `claim10_null_delete_noop`: deleting at an absent path of
a one-entry document is a no-op. -/
theorem claim10_null_delete_noop_witness :
    dcGet (.vobj [("a", .vnum 1)]) ["b"] = none ∧
    updateFromArray (.vobj [("a", .vnum 1)]) ["b"] .vnull =
      ⟨.vobj [("a", .vnum 1)], [], none⟩ :=
  ⟨rfl, claim10_null_delete_noop (.vobj [("a", .vnum 1)]) ["b"] (Or.inl rfl)⟩

/-! ## Decimal index keys: digits round-trip and injectivity (for claim C4) -/

def digitsToNat (l : List Char) : Nat :=
  l.foldl (fun acc c => acc * 10 + (c.toNat - 48)) 0

theorem digitChar_toNat_sub (n : Nat) (h : n < 10) :
    (Nat.digitChar n).toNat - 48 = n := by
  interval_cases n <;> decide

theorem digitsToNat_append_last (a : List Char) (c : Char) :
    digitsToNat (a ++ [c]) = digitsToNat a * 10 + (c.toNat - 48) := by
  simp [digitsToNat, List.foldl_append]

theorem digitsToNat_natToStrGo :
    ∀ (fuel n : Nat), n / 10 ≤ fuel → digitsToNat (natToStrGo fuel n) = n := by
  intro fuel
  induction fuel with
  | zero =>
    intro n h
    have hn : n < 10 := by omega
    have : n % 10 = n := Nat.mod_eq_of_lt hn
    simp [natToStrGo, this, digitsToNat, digitChar_toNat_sub n hn]
  | succ fuel ih =>
    intro n h
    by_cases hn : n < 10
    · simp [natToStrGo, hn, digitsToNat, digitChar_toNat_sub n hn]
    · simp only [natToStrGo, hn, if_false]
      rw [digitsToNat_append_last, ih (n / 10) (by omega),
        digitChar_toNat_sub (n % 10) (Nat.mod_lt n (by omega))]
      omega

theorem natToString_injective (m n : Nat) (h : natToString m = natToString n) : m = n := by
  have hdata : natToStrGo m m = natToStrGo n n := congrArg String.data h
  have hm := digitsToNat_natToStrGo m m (Nat.div_le_self m 10)
  have hn := digitsToNat_natToStrGo n n (Nat.div_le_self n 10)
  rw [← hm, ← hn, hdata]

theorem natToStrGo_digits :
    ∀ (fuel n : Nat) (c : Char), c ∈ natToStrGo fuel n → ∃ d, d < 10 ∧ c = Nat.digitChar d := by
  intro fuel
  induction fuel with
  | zero =>
    intro n c hc
    simp only [natToStrGo, List.mem_singleton] at hc
    exact ⟨n % 10, Nat.mod_lt n (by omega), hc⟩
  | succ fuel ih =>
    intro n c hc
    by_cases hn : n < 10
    · simp only [natToStrGo, hn, if_true, List.mem_singleton] at hc
      exact ⟨n, hn, hc⟩
    · simp only [natToStrGo, hn, if_false, List.mem_append, List.mem_singleton] at hc
      rcases hc with hc | hc
      · exact ih (n / 10) c hc
      · exact ⟨n % 10, Nat.mod_lt _ (by omega), hc⟩

theorem natToStrGo_ne_nil (fuel n : Nat) : natToStrGo fuel n ≠ [] := by
  cases fuel with
  | zero => simp [natToStrGo]
  | succ fuel =>
    by_cases hn : n < 10
    · simp [natToStrGo, hn]
    · simp [natToStrGo, hn]

theorem digitChar_not_special (d : Nat) (h : d < 10) :
    Nat.digitChar d ≠ '%' ∧ Nat.digitChar d ≠ '/' ∧ Nat.digitChar d ≠ '+' := by
  interval_cases d <;> refine ⟨by decide, by decide, by decide⟩

theorem jsReplaceAll_single_id (c : Char) (rep : List Char) :
    ∀ l, (∀ a ∈ l, a ≠ c) → jsReplaceAll [c] rep l = l := by
  intro l
  induction l with
  | nil => intro _; rfl
  | cons a rest ih =>
    intro h
    rw [jsReplaceAll_single]
    show ((if a = c then rep else [a]) ++ jsReplaceAll [c] rep rest) = a :: rest
    have ha : a ≠ c := h a (by simp)
    rw [if_neg ha]
    simp only [List.singleton_append, List.cons.injEq, true_and]
    exact ih (fun x hx => h x (by simp [hx]))

theorem encodeTopicElement_natToString (n : Nat) :
    encodeTopicElement (natToString n) = natToString n := by
  unfold encodeTopicElement
  have hdigits : ∀ a ∈ (natToString n).data, ∃ d, d < 10 ∧ a = Nat.digitChar d := by
    intro a ha
    exact natToStrGo_digits n n a ha
  have h1 : jsReplaceAll ['%'] ['%', '2', '5'] (natToString n).data = (natToString n).data := by
    apply jsReplaceAll_single_id
    intro a ha
    obtain ⟨d, hd, rfl⟩ := hdigits a ha
    exact (digitChar_not_special d hd).1
  have h2 : jsReplaceAll ['/'] ['%', '2', 'F'] (natToString n).data = (natToString n).data := by
    apply jsReplaceAll_single_id
    intro a ha
    obtain ⟨d, hd, rfl⟩ := hdigits a ha
    exact (digitChar_not_special d hd).2.1
  rw [h1, h2]

theorem dropWildcardIds_natToString (n : Nat) :
    dropWildcardIds (natToString n) = natToString n := by
  unfold dropWildcardIds
  have hne := natToStrGo_ne_nil n n
  have hh : strHead (natToString n) '+' = false := by
    unfold strHead
    show (match natToStrGo n n with | [] => false | a :: _ => a == '+') = false
    cases hl : natToStrGo n n with
    | nil => exact absurd hl hne
    | cons a tail =>
      have ha : a ∈ natToStrGo n n := by rw [hl]; simp
      obtain ⟨d, hd, rfl⟩ := natToStrGo_digits n n a ha
      simp [beq_eq_false_iff_ne, (digitChar_not_special d hd).2.2]
  rw [hh]
  simp

theorem joinSlash_split_last :
    ∀ (xs : List (List Char)) (a b : List Char),
      joinSlash (xs ++ [a, b]) = joinSlash (xs ++ [a]) ++ '/' :: b := by
  intro xs a b
  induction xs with
  | nil => rfl
  | cons x xtail ih =>
    cases xtail with
    | nil =>
      show joinSlash [x, a, b] = joinSlash [x, a] ++ '/' :: b
      show x ++ '/' :: joinSlash [a, b] = (x ++ '/' :: a) ++ '/' :: b
      show x ++ '/' :: (a ++ '/' :: b) = (x ++ '/' :: a) ++ '/' :: b
      simp [List.append_assoc]
    | cons y ytail =>
      simp only [List.cons_append] at ih ⊢
      have l1 : joinSlash (x :: y :: (ytail ++ [a, b])) =
          x ++ '/' :: joinSlash (y :: (ytail ++ [a, b])) := rfl
      have l2 : joinSlash (x :: y :: (ytail ++ [a])) =
          x ++ '/' :: joinSlash (y :: (ytail ++ [a])) := rfl
      rw [l1, l2, ih]
      simp [List.append_assoc]

theorem pathToTopic_index_injective (k : String) (p : List String) (i j : Nat)
    (h : pathToTopic (p ++ [k, natToString i]) = pathToTopic (p ++ [k, natToString j])) :
    i = j := by
  unfold pathToTopic at h
  have hdata :
      '/' :: joinSlash ((p ++ [k, natToString i]).map
        (fun x => (encodeTopicElement (dropWildcardIds x)).data)) =
      '/' :: joinSlash ((p ++ [k, natToString j]).map
        (fun x => (encodeTopicElement (dropWildcardIds x)).data)) :=
    congrArg String.data h
  injection hdata with _ htail
  rw [List.map_append, List.map_append] at htail
  simp only [List.map_cons, List.map_nil] at htail
  rw [joinSlash_split_last, joinSlash_split_last] at htail
  have hlast := List.append_cancel_left htail
  injection hlast with _ hlist
  rw [dropWildcardIds_natToString, dropWildcardIds_natToString,
    encodeTopicElement_natToString, encodeTopicElement_natToString] at hlist
  exact natToString_injective i j (congrArg String.mk hlist)

theorem joinSlash_last_injective :
    ∀ (xs : List (List Char)) (a b : List Char),
      joinSlash (xs ++ [a]) = joinSlash (xs ++ [b]) → a = b := by
  intro xs
  induction xs with
  | nil => intro a b h; exact h
  | cons x xtail ih =>
    intro a b h
    cases xtail with
    | nil =>
      have ha : joinSlash ([x] ++ [a]) = x ++ '/' :: a := rfl
      have hb : joinSlash ([x] ++ [b]) = x ++ '/' :: b := rfl
      rw [ha, hb] at h
      have := List.append_cancel_left h
      injection this
    | cons y ytail =>
      have ha : joinSlash ((x :: y :: ytail) ++ [a]) =
          x ++ '/' :: joinSlash ((y :: ytail) ++ [a]) := rfl
      have hb : joinSlash ((x :: y :: ytail) ++ [b]) =
          x ++ '/' :: joinSlash ((y :: ytail) ++ [b]) := rfl
      rw [ha, hb] at h
      have h2 := List.append_cancel_left h
      injection h2 with _ h3
      exact ih a b h3

theorem pathToTopic_last_index_injective (p : List String) (i j : Nat)
    (h : pathToTopic (p ++ [natToString i]) = pathToTopic (p ++ [natToString j])) :
    i = j := by
  unfold pathToTopic at h
  have hdata :
      '/' :: joinSlash ((p ++ [natToString i]).map
        (fun x => (encodeTopicElement (dropWildcardIds x)).data)) =
      '/' :: joinSlash ((p ++ [natToString j]).map
        (fun x => (encodeTopicElement (dropWildcardIds x)).data)) :=
    congrArg String.data h
  injection hdata with _ htail
  rw [List.map_append, List.map_append] at htail
  simp only [List.map_cons, List.map_nil] at htail
  have hlist := joinSlash_last_injective _ _ _ htail
  rw [dropWildcardIds_natToString, dropWildcardIds_natToString,
    encodeTopicElement_natToString, encodeTopicElement_natToString] at hlist
  exact natToString_injective i j (congrArg String.mk hlist)

/-- Enumerate a list with indices starting at `i` (JS array iteration
order in lodash `forEach`). -/
def enumFrom : Nat → List Value → List (Nat × Value)
  | _, [] => []
  | i, v :: rest => (i, v) :: enumFrom (i + 1) rest

theorem objInsert_fresh {α : Type} (k : String) (v : α) :
    ∀ acc : List (String × α), (∀ e ∈ acc, e.1 ≠ k) →
      objInsert acc k v = acc ++ [(k, v)] := by
  intro acc
  induction acc with
  | nil => intro _; rfl
  | cons e rest ih =>
    intro h
    have he : (e.1 == k) = false := by
      simp [beq_eq_false_iff_ne]
      exact h e (by simp)
    simp only [objInsert, he, Bool.false_eq_true, if_false, List.cons_append,
      List.cons.injEq, true_and]
    exact ih (fun x hx => h x (by simp [hx]))

theorem flatVisit_primitive (v : Value) (q : List String) (acc : List (String × Value))
    (hv : jsInstanceOfObject v = false) :
    flatVisit v q acc = objInsert acc (pathToTopic q) v := by
  cases v with
  | vobj kvs => exact nomatch hv
  | varr xs => exact nomatch hv
  | vnull => rfl
  | vbool b => rfl
  | vnum n => rfl
  | vstr s => rfl

theorem flatFoldElems_primitives :
    ∀ (vs : List Value) (i : Nat) (p : List String) (acc : List (String × Value)),
      (∀ v ∈ vs, jsInstanceOfObject v = false) →
      (∀ e ∈ acc, ∀ j, i ≤ j → e.1 ≠ pathToTopic (p ++ [natToString j])) →
      flatFoldElems vs i p acc =
        acc ++ (enumFrom i vs).map (fun e => (pathToTopic (p ++ [natToString e.1]), e.2)) := by
  intro vs
  induction vs with
  | nil => intro i p acc _ _; simp [flatFoldElems, enumFrom]
  | cons v rest ih =>
    intro i p acc hprim hacc
    have hv : jsInstanceOfObject v = false := hprim v (by simp)
    have hstep : flatFoldElems (v :: rest) i p acc =
        flatFoldElems rest (i + 1) p (flatVisit v (p ++ [natToString i]) acc) := rfl
    rw [hstep, flatVisit_primitive v _ acc hv,
      objInsert_fresh _ _ acc (fun e he => hacc e he i (Nat.le_refl i))]
    rw [ih (i + 1) p _ (fun x hx => hprim x (by simp [hx]))]
    · simp [enumFrom, List.append_assoc]
    · intro e he j hj
      rcases List.mem_append.mp he with he | he
      · exact hacc e he j (by omega)
      · have : e = (pathToTopic (p ++ [natToString i]), v) := by simpa using he
        subst this
        intro hcontra
        have := pathToTopic_last_index_injective p i j hcontra
        omega

/-- Claim C4 (counterexample): the claim asserts that `toFlatObject`
treats arrays as opaque leaves, producing a single entry mapping the
array's topic to the whole array; but flattening a document with an array
value descends into the array, producing one entry per element keyed by
its decimal index. -/
theorem claim4_counterexample :
    toFlatObject (.vobj [("a", .varr [.vnum 5, .vnum 6])]) =
      [("/a/0", .vnum 5), ("/a/1", .vnum 6)] ∧
    toFlatObject (.vobj [("a", .varr [.vnum 5, .vnum 6])]) ≠
      [("/a", .varr [.vnum 5, .vnum 6])] := by
  constructor
  · rfl
  · intro hcontra
    exact absurd (congrArg List.length hcontra) (by decide)

/-- Claim C4 (amended): `toFlatObject` descends into arrays exactly as
into plain objects: for a document holding an array of primitive
(non-object, non-array) elements, flattening yields one entry per element
whose key is the array's topic extended with the element's decimal index;
descent does continue into the array's elements. -/
theorem claim4_array_descent_amended (k : String) (vs : List Value)
    (h : ∀ v ∈ vs, jsInstanceOfObject v = false) :
    toFlatObject (.vobj [(k, .varr vs)]) =
      (enumFrom 0 vs).map (fun e => (pathToTopic [k, natToString e.1], e.2)) := by
  have h0 : toFlatObject (.vobj [(k, .varr vs)]) = flatFoldElems vs 0 [k] [] := rfl
  rw [h0, flatFoldElems_primitives vs 0 [k] [] h (by intro e he; simp at he)]
  simp

/-- Witness for `claim4_array_descent_amended` at the document
`{a: [5, 6]}`. -/
theorem claim4_array_descent_amended_witness :
    (∀ v ∈ [Value.vnum 5, Value.vnum 6], jsInstanceOfObject v = false) ∧
    toFlatObject (.vobj [("a", .varr [.vnum 5, .vnum 6])]) =
      (enumFrom 0 [Value.vnum 5, Value.vnum 6]).map
        (fun e => (pathToTopic ["a", natToString e.1], e.2)) :=
  ⟨by decide, claim4_array_descent_amended "a" [.vnum 5, .vnum 6] (by decide)⟩

/-! ## Structural lemmas on document operations (claims C1 and C8) -/

theorem getPath_nil (v : Value) : getPath v [] = some v := by
  cases v <;> rfl

theorem getPath_vobj_cons (m : List (String × Value)) (k : String) (rest : List String) :
    getPath (.vobj m) (k :: rest) =
      (match objGet m k with
       | some c => getPath c rest
       | none => none) := rfl

theorem getPath_append (a : List String) :
    ∀ (b : List String) (v : Value),
      getPath v (a ++ b) = (getPath v a).bind (fun u => getPath u b) := by
  induction a with
  | nil => intro b v; simp [getPath]
  | cons k a' ih =>
    intro b v
    cases v with
    | vobj kvs =>
      rw [List.cons_append, getPath_vobj_cons, getPath_vobj_cons]
      cases hg : objGet kvs k with
      | some c => exact ih b c
      | none => rfl
    | vnull => rfl
    | vbool x => rfl
    | vnum x => rfl
    | vstr x => rfl
    | varr x => rfl

theorem setPath_cons_cons (kvs : List (String × Value)) (k r0 : String)
    (rs : List String) (v : Value) :
    setPath (.vobj kvs) (k :: r0 :: rs) v =
      .vobj (objInsert kvs k (setPath
        (match objGet kvs k with
         | some (.vobj ckvs) => Value.vobj ckvs
         | _ => Value.vobj []) (r0 :: rs) v)) := rfl

theorem setPath_base_is_vobj (kvs : List (String × Value)) (k : String) :
    ∃ B, (match objGet kvs k with
          | some (.vobj ckvs) => Value.vobj ckvs
          | _ => Value.vobj []) = Value.vobj B := by
  cases hg : objGet kvs k with
  | none => exact ⟨[], rfl⟩
  | some c =>
    cases c with
    | vobj ckvs => exact ⟨ckvs, rfl⟩
    | vnull => exact ⟨[], rfl⟩
    | vbool b => exact ⟨[], rfl⟩
    | vnum n => exact ⟨[], rfl⟩
    | vstr s => exact ⟨[], rfl⟩
    | varr xs => exact ⟨[], rfl⟩

theorem getPath_setPath_self :
    ∀ (p : List String) (kvs : List (String × Value)) (v : Value), p ≠ [] →
      getPath (setPath (.vobj kvs) p v) p = some v := by
  intro p
  induction p with
  | nil => intro kvs v hp; exact absurd rfl hp
  | cons k rest ih =>
    intro kvs v _
    cases rest with
    | nil =>
      show getPath (.vobj (objInsert kvs k v)) [k] = some v
      rw [getPath_vobj_cons, objGet_objInsert_self]
      simp [getPath_nil]
    | cons r0 rs =>
      rw [setPath_cons_cons, getPath_vobj_cons, objGet_objInsert_self]
      obtain ⟨B, hB⟩ := setPath_base_is_vobj kvs k
      rw [hB]
      exact ih B v (by simp)

theorem unsetPath_vobj_cons2 (kvs : List (String × Value)) (k r0 : String) (rs : List String) :
    unsetPath (.vobj kvs) (k :: r0 :: rs) =
      (match objGet kvs k with
       | some c => Value.vobj (objInsert kvs k (unsetPath c (r0 :: rs)))
       | none => Value.vobj kvs) := rfl

theorem getPath_unsetPath_self :
    ∀ (p : List String) (doc : Value), p ≠ [] →
      getPath (unsetPath doc p) p = none := by
  intro p
  induction p with
  | nil => intro doc hp; exact absurd rfl hp
  | cons k rest ih =>
    intro doc _
    cases rest with
    | nil =>
      cases doc with
      | vobj kvs =>
        show getPath (.vobj (objDelete kvs k)) [k] = none
        rw [getPath_vobj_cons, objGet_objDelete_self]
      | vnull => rfl
      | vbool b => rfl
      | vnum n => rfl
      | vstr s => rfl
      | varr xs => rfl
    | cons r0 rs =>
      cases doc with
      | vobj kvs =>
        rw [unsetPath_vobj_cons2]
        cases hg : objGet kvs k with
        | some c =>
          rw [getPath_vobj_cons, objGet_objInsert_self]
          exact ih c (by simp)
        | none =>
          rw [getPath_vobj_cons, hg]
      | vnull => rfl
      | vbool b => rfl
      | vnum n => rfl
      | vstr s => rfl
      | varr xs => rfl

theorem unset_nil (doc : Value) : unset doc [] = doc := rfl

theorem unset_cons (doc : Value) (k : String) (rest : List String) :
    unset doc (k :: rest) =
      (if (if ((k :: rest).dropLast).isEmpty then jsIsEmpty (unsetPath doc (k :: rest))
           else
             match getPath (unsetPath doc (k :: rest)) ((k :: rest).dropLast) with
             | some par => jsIsEmpty par
             | none => true)
       then unset (unsetPath doc (k :: rest)) ((k :: rest).dropLast)
       else unsetPath doc (k :: rest)) := by
  show unsetFrom (rest.length + 1) doc (k :: rest) = _
  simp only [unsetFrom]
  congr 1
  unfold unset
  congr 1
  simp [List.length_dropLast]

theorem unset_getPath_self :
    ∀ (n : Nat) (p : List String), p.length ≤ n → p ≠ [] → ∀ (doc : Value),
      getPath (unset doc p) p = none := by
  intro n
  induction n with
  | zero =>
    intro p hl hp doc
    cases p with
    | nil => exact absurd rfl hp
    | cons k rest => simp at hl
  | succ n ih =>
    intro p hl hp doc
    cases p with
    | nil => exact absurd rfl hp
    | cons k rest =>
      rw [unset_cons]
      cases rest with
      | nil =>
        have hd : ((k :: ([] : List String)).dropLast) = [] := rfl
        rw [hd]
        simp only [List.isEmpty_nil, if_true]
        split
        · rw [unset_nil]
          exact getPath_unsetPath_self [k] doc (by simp)
        · exact getPath_unsetPath_self [k] doc (by simp)
      | cons r0 rs =>
        have hd : ((k :: r0 :: rs).dropLast) = k :: (r0 :: rs).dropLast := rfl
        rw [hd]
        have hne : (k :: (r0 :: rs).dropLast).isEmpty = false := rfl
        rw [hne]
        simp only [Bool.false_eq_true, if_false]
        have hlast : (r0 :: rs).dropLast ++ [(r0 :: rs).getLast (by simp)] = r0 :: rs :=
          List.dropLast_append_getLast (by simp)
        have hsplit : k :: r0 :: rs =
            (k :: (r0 :: rs).dropLast) ++ [(r0 :: rs).getLast (by simp)] := by
          rw [List.cons_append, hlast]
        have hplen : (k :: (r0 :: rs).dropLast).length ≤ n := by
          simp only [List.length_cons, List.length_dropLast] at hl ⊢
          omega
        set doc1 := unsetPath doc (k :: r0 :: rs) with hdoc1
        split
        · conv_lhs => rw [hsplit]
          rw [getPath_append, ih (k :: (r0 :: rs).dropLast) hplen (by simp) doc1]
          rfl
        · rw [hdoc1]
          exact getPath_unsetPath_self _ doc (by simp)

theorem unset_no_empty_ancestor :
    ∀ (n : Nat) (p : List String), p.length ≤ n → ∀ (doc : Value) (q t : List String),
      q ≠ [] → t ≠ [] → p = q ++ t →
      getPath (unset doc p) q ≠ some (.vobj []) := by
  intro n
  induction n with
  | zero =>
    intro p hl doc q t hq ht heq
    subst heq
    cases q with
    | nil => exact absurd rfl hq
    | cons a b => simp at hl
  | succ n ih =>
    intro p hl doc q t hq ht heq
    obtain ⟨k, q', rfl⟩ : ∃ k q', q = k :: q' := by
      cases q with
      | nil => exact absurd rfl hq
      | cons a b => exact ⟨a, b, rfl⟩
    subst heq
    rw [List.cons_append] at hl ⊢
    obtain ⟨r0, rs, hr⟩ : ∃ r0 rs, q' ++ t = r0 :: rs := by
      cases hqt : q' ++ t with
      | nil =>
        rcases List.append_eq_nil.mp hqt with ⟨_, h2⟩
        exact absurd h2 ht
      | cons a b => exact ⟨a, b, rfl⟩
    rw [hr] at hl ⊢
    rw [unset_cons]
    have hd : ((k :: r0 :: rs).dropLast) = k :: (r0 :: rs).dropLast := rfl
    rw [hd]
    have hne : (k :: (r0 :: rs).dropLast).isEmpty = false := rfl
    rw [hne]
    simp only [Bool.false_eq_true, if_false]
    have hlast : (r0 :: rs).dropLast ++ [(r0 :: rs).getLast (by simp)] = r0 :: rs :=
      List.dropLast_append_getLast (by simp)
    have hsplitp : k :: r0 :: rs =
        (k :: (r0 :: rs).dropLast) ++ [(r0 :: rs).getLast (by simp)] := by
      rw [List.cons_append, hlast]
    have hqlen : (k :: q').length ≤ (k :: (r0 :: rs).dropLast).length := by
      have : (k :: q').length + t.length = (k :: r0 :: rs).length := by
        rw [← List.length_append, List.cons_append, hr]
      have ht1 : 1 ≤ t.length := by
        cases t with
        | nil => exact absurd rfl ht
        | cons a b => simp
      simp only [List.length_cons, List.length_dropLast] at this ⊢
      omega
    have hqpre : (k :: q') <+: (k :: (r0 :: rs).dropLast) := by
      have h1 : (k :: q') <+: (k :: r0 :: rs) := ⟨t, by rw [List.cons_append, hr]⟩
      have h2 : (k :: (r0 :: rs).dropLast) <+: (k :: r0 :: rs) :=
        ⟨[(r0 :: rs).getLast (by simp)], hsplitp.symm⟩
      exact List.prefix_of_prefix_length_le h1 h2 hqlen
    split
    · rename_i hcond
      rcases hqpre with ⟨t', ht'⟩
      by_cases hteq : t' = []
      · subst hteq
        rw [List.append_nil] at ht'
        rw [← ht']
        rw [unset_getPath_self n (k :: q') (by
          simp only [List.length_cons, List.length_dropLast] at hl ⊢
          have : (k :: q').length ≤ (k :: (r0 :: rs).dropLast).length := hqlen
          simp only [List.length_cons, List.length_dropLast] at this
          omega) (by simp) (unsetPath doc (k :: r0 :: rs))]
        simp
      · exact ih (k :: (r0 :: rs).dropLast) (by
            simp only [List.length_cons, List.length_dropLast] at hl ⊢
            omega) (unsetPath doc (k :: r0 :: rs)) (k :: q') t' (by simp) hteq ht'.symm
    · rename_i hcond
      cases hgp : getPath (unsetPath doc (k :: r0 :: rs)) (k :: (r0 :: rs).dropLast) with
      | none => rw [hgp] at hcond; exact absurd rfl hcond
      | some par =>
        rw [hgp] at hcond
        have hpe : jsIsEmpty par = false := by
          cases hb : jsIsEmpty par with
          | true => exact absurd hb hcond
          | false => rfl
        rcases hqpre with ⟨t', ht'⟩
        by_cases hteq : t' = []
        · subst hteq
          rw [List.append_nil] at ht'
          intro hc
          rw [ht', hgp] at hc
          have : par = Value.vobj [] := by injection hc
          rw [this] at hpe
          exact absurd hpe (by simp [jsIsEmpty])
        · intro hc
          rw [← ht'] at hgp
          rw [getPath_append, hc] at hgp
          obtain ⟨c0, cs, rfl⟩ : ∃ c0 cs, t' = c0 :: cs := by
            cases t' with
            | nil => exact absurd rfl hteq
            | cons a b => exact ⟨a, b, rfl⟩
          exact Option.noConfusion hgp

theorem dcGet_ne_nil (doc : Value) (p : List String) (hp : p ≠ []) :
    dcGet doc p = getPath doc p := by
  cases p with
  | nil => exact absurd rfl hp
  | cons k rest => simp [dcGet]

theorem lodashGet_ne_nil (doc : Value) (p : List String) (hp : p ≠ []) :
    lodashGet doc p = getPath doc p := by
  cases p with
  | nil => exact absurd rfl hp
  | cons k rest => simp [lodashGet]

theorem updateFromArray_notnull (doc : Value) (p : List String) (v : Value)
    (hv : v ≠ .vnull) :
    updateFromArray doc p v =
      (if (match lodashGet doc p with
           | some c => Value.beq c v
           | none => false)
       then ⟨doc, [], none⟩
       else ⟨setPath doc p v, flatChangesFor (pathToTopic p) v,
         some ([(pathToTopic p, v)], flatChangesFor (pathToTopic p) v)⟩) := by
  cases v with
  | vnull => exact absurd rfl hv
  | vbool b => rfl
  | vnum n => rfl
  | vstr s => rfl
  | varr xs => rfl
  | vobj kvs => rfl

theorem updateFromArray_null (doc : Value) (p : List String) :
    updateFromArray doc p .vnull =
      (match lodashGet doc p with
       | none => ⟨doc, [], none⟩
       | some .vnull => ⟨doc, [], none⟩
       | some _ => ⟨unset doc p, [(pathToTopic p, .vnull)],
           some ([(pathToTopic p, .vnull)], [(pathToTopic p, .vnull)])⟩) := rfl

theorem updateFromArray_null_deletes (doc : Value) (p : List String) (hp : p ≠ [])
    (w : Value) (hw : getPath doc p = some w) (hwn : w ≠ .vnull) :
    (updateFromArray doc p .vnull).doc = unset doc p := by
  rw [updateFromArray_null, lodashGet_ne_nil _ _ hp, hw]
  cases w with
  | vnull => exact absurd rfl hwn
  | vbool b => rfl
  | vnum n => rfl
  | vstr s => rfl
  | varr x => rfl
  | vobj m => rfl

/-- Claim C1 (amended): for every document and non-empty path `p`,
`update(p, v); get(p)` returns exactly `v` for `v ≠ null`; and when `p`
currently holds a non-null value, `update(p, null); get(p)` returns
`undefined` and no emptied ancestor of `p` remains as an empty interior
node. (The restriction to non-empty paths and non-null stored values is
forced by the counterexample: an empty path is a silent no-op of lodash
`set`, and a stored `null` makes the deletion an early no-op.) -/
theorem claim1_update_get_amended (kvs : List (String × Value)) (p : List String)
    (hp : p ≠ []) :
    (∀ v : Value, v ≠ .vnull →
      dcGet (updateFromArray (.vobj kvs) p v).doc p = some v) ∧
    (∀ w : Value, getPath (.vobj kvs) p = some w → w ≠ .vnull →
      dcGet (updateFromArray (.vobj kvs) p .vnull).doc p = none ∧
      ∀ q t, q ≠ [] → t ≠ [] → p = q ++ t →
        getPath (updateFromArray (.vobj kvs) p .vnull).doc q ≠ some (.vobj [])) := by
  constructor
  · intro v hv
    rw [updateFromArray_notnull _ _ _ hv]
    by_cases hcond : (match lodashGet (Value.vobj kvs) p with
        | some c => Value.beq c v
        | none => false) = true
    · rw [if_pos hcond]
      rw [dcGet_ne_nil _ _ hp]
      cases hcur : getPath (.vobj kvs) p with
      | none =>
        rw [lodashGet_ne_nil _ _ hp, hcur] at hcond
        exact absurd hcond (by simp)
      | some c =>
        rw [lodashGet_ne_nil _ _ hp, hcur] at hcond
        have hbeq : Value.beq c v = true := hcond
        rw [Value.beq_sound c v hbeq]
    · rw [if_neg hcond]
      rw [dcGet_ne_nil _ _ hp]
      exact getPath_setPath_self p kvs v hp
  · intro w hw hwn
    rw [updateFromArray_null_deletes _ _ hp w hw hwn]
    constructor
    · rw [dcGet_ne_nil _ _ hp]
      exact unset_getPath_self p.length p (Nat.le_refl _) hp _
    · intro q t hq ht heq
      exact unset_no_empty_ancestor p.length p (Nat.le_refl _) _ q t hq ht heq

/-- Witness for `claim1_update_get_amended` on the document `{a: 1, x: 2}`
at path `["a"]`: writing `7` is read back, and writing `null` removes the
entry. -/
theorem claim1_update_get_amended_witness :
    (["a"] : List String) ≠ [] ∧
    dcGet (updateFromArray (.vobj [("a", .vnum 1), ("x", .vnum 2)]) ["a"] (.vnum 7)).doc
      ["a"] = some (.vnum 7) ∧
    dcGet (updateFromArray (.vobj [("a", .vnum 1), ("x", .vnum 2)]) ["a"] .vnull).doc
      ["a"] = none := by
  refine ⟨by simp, ?_, ?_⟩
  · exact (claim1_update_get_amended [("a", .vnum 1), ("x", .vnum 2)] ["a"]
      (by simp)).1 (.vnum 7) (by intro h; exact Value.noConfusion h)
  · exact ((claim1_update_get_amended [("a", .vnum 1), ("x", .vnum 2)] ["a"]
      (by simp)).2 (.vnum 1) rfl (by intro h; exact Value.noConfusion h)).1

/-- Claim C1 (counterexample): the claim quantifies over every path and
asserts that `update(p, null); get(p)` returns `undefined`. It fails (a)
at the empty path, where lodash `set` silently leaves the document
unchanged so `get` returns the whole document rather than the written
value, and (b) at a path holding a stored `null` (reachable by writing
`{b: null}`), where `update(p, null)` is an early no-op and `get(p)`
still returns `null`, not `undefined`. -/
theorem claim1_counterexample :
    (dcGet (updateFromArray (.vobj []) [] (.vnum 1)).doc [] = some (.vobj []) ∧
      ¬ dcGet (updateFromArray (.vobj []) [] (.vnum 1)).doc [] = some (.vnum 1)) ∧
    ((updateFromArray (.vobj []) ["a"] (.vobj [("b", .vnull)])).doc =
        .vobj [("a", .vobj [("b", .vnull)])] ∧
      dcGet (updateFromArray (.vobj [("a", .vobj [("b", .vnull)])]) ["a", "b"] .vnull).doc
        ["a", "b"] = some .vnull ∧
      ¬ dcGet (updateFromArray (.vobj [("a", .vobj [("b", .vnull)])]) ["a", "b"] .vnull).doc
        ["a", "b"] = none) := by
  refine ⟨⟨rfl, ?_⟩, rfl, rfl, ?_⟩
  · intro h
    exact Value.noConfusion (Option.some.inj h)
  · intro h
    exact Option.noConfusion h

/-! ## The no-empty-interior-node invariant (claim C8)

`noEmptyV` states that a value contains no empty object anywhere inside
(the root document itself is allowed to be empty); `cleanExcept v q`
weakens this at exactly the node addressed by `q` (the node lodash `get`
and the repo's `unset` helper reach first), which is the shape produced by
one `_.unset` step before the parent-pruning recursion runs. -/

mutual

def noEmptyV : Value → Bool
  | .vobj kvs => !kvs.isEmpty && noEmptyEntries kvs
  | .varr xs => noEmptyElems xs
  | _ => true

def noEmptyEntries : List (String × Value) → Bool
  | [] => true
  | (_, v) :: rest => noEmptyV v && noEmptyEntries rest

def noEmptyElems : List Value → Bool
  | [] => true
  | v :: rest => noEmptyV v && noEmptyElems rest

end

mutual

def cleanExcept : Value → List String → Bool
  | .vobj kvs, [] => noEmptyEntries kvs
  | v, [] => noEmptyV v
  | .vobj kvs, k :: rest => !kvs.isEmpty && cleanExceptEntries kvs k rest
  | v, _ :: _ => noEmptyV v

def cleanExceptEntries : List (String × Value) → String → List String → Bool
  | [], _, _ => true
  | (k', v') :: tail, k, rest =>
      if k' == k then cleanExcept v' rest && noEmptyEntries tail
      else noEmptyV v' && cleanExceptEntries tail k rest

end

theorem noEmptyEntries_objGet (k : String) :
    ∀ (kvs : List (String × Value)) (u : Value),
      noEmptyEntries kvs = true → objGet kvs k = some u → noEmptyV u = true := by
  intro kvs
  induction kvs with
  | nil => intro u _ hg; exact Option.noConfusion hg
  | cons e rest ih =>
    intro u hall hg
    obtain ⟨k', v'⟩ := e
    simp only [noEmptyEntries, Bool.and_eq_true] at hall
    by_cases he : (k' == k) = true
    · simp only [objGet, List.find?_cons, he] at hg
      have : v' = u := by
        simpa using hg
      exact this ▸ hall.1
    · have he' : (k' == k) = false := by
        cases hb : (k' == k) with
        | true => exact absurd hb he
        | false => rfl
      simp only [objGet, List.find?_cons, he'] at hg
      exact ih u hall.2 (by simpa [objGet] using hg)

theorem noEmptyEntries_objInsert (k : String) (v : Value) :
    ∀ (kvs : List (String × Value)),
      noEmptyEntries kvs = true → noEmptyV v = true →
      noEmptyEntries (objInsert kvs k v) = true := by
  intro kvs
  induction kvs with
  | nil => intro _ hv; simp [objInsert, noEmptyEntries, hv]
  | cons e rest ih =>
    intro hall hv
    obtain ⟨k', v'⟩ := e
    simp only [noEmptyEntries, Bool.and_eq_true] at hall
    by_cases he : (k' == k) = true
    · simp only [objInsert, he, if_true, noEmptyEntries, Bool.and_eq_true]
      exact ⟨hv, hall.2⟩
    · have he' : (k' == k) = false := by
        cases hb : (k' == k) with
        | true => exact absurd hb he
        | false => rfl
      simp only [objInsert, he', Bool.false_eq_true, if_false, noEmptyEntries,
        Bool.and_eq_true]
      exact ⟨hall.1, ih hall.2 hv⟩

theorem noEmptyEntries_objDelete (k : String) :
    ∀ (kvs : List (String × Value)),
      noEmptyEntries kvs = true → noEmptyEntries (objDelete kvs k) = true := by
  intro kvs
  induction kvs with
  | nil => intro _; rfl
  | cons e rest ih =>
    intro hall
    obtain ⟨k', v'⟩ := e
    simp only [noEmptyEntries, Bool.and_eq_true] at hall
    by_cases he : (k' == k) = true
    · have : ((k', v').1 != k) = false := by simp [bne, he]
      simp only [objDelete, List.filter_cons, this, Bool.false_eq_true, if_false]
      exact ih hall.2
    · have he' : (k' == k) = false := by
        cases hb : (k' == k) with
        | true => exact absurd hb he
        | false => rfl
      have : ((k', v').1 != k) = true := by simp [bne, he']
      simp only [objDelete, List.filter_cons, this, if_true, noEmptyEntries,
        Bool.and_eq_true]
      exact ⟨hall.1, by simpa [objDelete] using ih hall.2⟩

theorem cleanExcept_of_noEmpty :
    ∀ (q : List String),
      (∀ v, noEmptyV v = true → cleanExcept v q = true) ∧
      (∀ (kvs : List (String × Value)) (k : String), noEmptyEntries kvs = true →
        cleanExceptEntries kvs k q = true) := by
  intro q
  induction q with
  | nil =>
    have p1 : ∀ v, noEmptyV v = true → cleanExcept v [] = true := by
      intro v hv
      cases v with
      | vobj kvs =>
        simp only [noEmptyV, Bool.and_eq_true] at hv
        exact hv.2
      | vnull => rfl
      | vbool b => rfl
      | vnum n => rfl
      | vstr s => exact hv
      | varr xs => exact hv
    refine ⟨p1, ?_⟩
    intro kvs k hall
    induction kvs with
    | nil => rfl
    | cons e rest ih =>
      obtain ⟨k', v'⟩ := e
      simp only [noEmptyEntries, Bool.and_eq_true] at hall
      by_cases he : (k' == k) = true
      · simp only [cleanExceptEntries, he, if_true, Bool.and_eq_true]
        exact ⟨p1 v' hall.1, hall.2⟩
      · have he' : (k' == k) = false := by
          cases hb : (k' == k) with
          | true => exact absurd hb he
          | false => rfl
        simp only [cleanExceptEntries, he', Bool.false_eq_true, if_false,
          Bool.and_eq_true]
        exact ⟨hall.1, ih hall.2⟩
  | cons k0 rest ih =>
    have p1 : ∀ v, noEmptyV v = true → cleanExcept v (k0 :: rest) = true := by
      intro v hv
      cases v with
      | vobj kvs =>
        simp only [noEmptyV, Bool.and_eq_true] at hv
        simp only [cleanExcept, Bool.and_eq_true]
        exact ⟨hv.1, ih.2 kvs k0 hv.2⟩
      | vnull => rfl
      | vbool b => rfl
      | vnum n => rfl
      | vstr s => exact hv
      | varr xs => exact hv
    refine ⟨p1, ?_⟩
    intro kvs k hall
    induction kvs with
    | nil => rfl
    | cons e tail ihe =>
      obtain ⟨k', v'⟩ := e
      simp only [noEmptyEntries, Bool.and_eq_true] at hall
      by_cases he : (k' == k) = true
      · simp only [cleanExceptEntries, he, if_true, Bool.and_eq_true]
        exact ⟨p1 v' hall.1, hall.2⟩
      · have he' : (k' == k) = false := by
          cases hb : (k' == k) with
          | true => exact absurd hb he
          | false => rfl
        simp only [cleanExceptEntries, he', Bool.false_eq_true, if_false,
          Bool.and_eq_true]
        exact ⟨hall.1, ihe hall.2⟩

theorem cleanExceptEntries_objDelete (k : String) (r : List String) :
    ∀ (kvs : List (String × Value)),
      cleanExceptEntries kvs k r = true → noEmptyEntries (objDelete kvs k) = true := by
  intro kvs
  induction kvs with
  | nil => intro _; rfl
  | cons e tail ih =>
    intro h
    obtain ⟨k', v'⟩ := e
    by_cases he : (k' == k) = true
    · simp only [cleanExceptEntries, he, if_true, Bool.and_eq_true] at h
      have : ((k', v').1 != k) = false := by simp [bne, he]
      simp only [objDelete, List.filter_cons, this, Bool.false_eq_true, if_false]
      exact noEmptyEntries_objDelete k tail h.2
    · have he' : (k' == k) = false := by
        cases hb : (k' == k) with
        | true => exact absurd hb he
        | false => rfl
      simp only [cleanExceptEntries, he', Bool.false_eq_true, if_false,
        Bool.and_eq_true] at h
      have : ((k', v').1 != k) = true := by simp [bne, he']
      simp only [objDelete, List.filter_cons, this, if_true, noEmptyEntries,
        Bool.and_eq_true]
      exact ⟨h.1, by simpa [objDelete] using ih h.2⟩

theorem cleanExceptEntries_objGet (k : String) (r : List String) :
    ∀ (kvs : List (String × Value)) (c : Value),
      cleanExceptEntries kvs k r = true → objGet kvs k = some c →
      cleanExcept c r = true := by
  intro kvs
  induction kvs with
  | nil => intro c _ hg; exact Option.noConfusion hg
  | cons e tail ih =>
    intro c h hg
    obtain ⟨k', v'⟩ := e
    by_cases he : (k' == k) = true
    · simp only [cleanExceptEntries, he, if_true, Bool.and_eq_true] at h
      simp only [objGet, List.find?_cons, he] at hg
      have : v' = c := by simpa using hg
      exact this ▸ h.1
    · have he' : (k' == k) = false := by
        cases hb : (k' == k) with
        | true => exact absurd hb he
        | false => rfl
      simp only [cleanExceptEntries, he', Bool.false_eq_true, if_false,
        Bool.and_eq_true] at h
      simp only [objGet, List.find?_cons, he'] at hg
      exact ih c h.2 (by simpa [objGet] using hg)

theorem cleanExceptEntries_no_match (k : String) (r : List String) :
    ∀ (kvs : List (String × Value)),
      objGet kvs k = none → cleanExceptEntries kvs k r = true →
      noEmptyEntries kvs = true := by
  intro kvs
  induction kvs with
  | nil => intro _ _; rfl
  | cons e tail ih =>
    intro hg h
    obtain ⟨k', v'⟩ := e
    by_cases he : (k' == k) = true
    · simp only [objGet, List.find?_cons, he] at hg
      exact Option.noConfusion hg
    · have he' : (k' == k) = false := by
        cases hb : (k' == k) with
        | true => exact absurd hb he
        | false => rfl
      simp only [cleanExceptEntries, he', Bool.false_eq_true, if_false,
        Bool.and_eq_true] at h
      simp only [objGet, List.find?_cons, he'] at hg
      simp only [noEmptyEntries, Bool.and_eq_true]
      exact ⟨h.1, ih (by simpa [objGet] using hg) h.2⟩

theorem cleanExceptEntries_objInsert (k : String) (r q' : List String) (X : Value) :
    ∀ (kvs : List (String × Value)),
      cleanExceptEntries kvs k r = true → cleanExcept X q' = true →
      cleanExceptEntries (objInsert kvs k X) k q' = true := by
  intro kvs
  induction kvs with
  | nil =>
    intro _ hX
    simp only [objInsert, cleanExceptEntries, BEq.refl, if_true, Bool.and_eq_true]
    exact ⟨hX, rfl⟩
  | cons e tail ih =>
    intro h hX
    obtain ⟨k', v'⟩ := e
    by_cases he : (k' == k) = true
    · simp only [cleanExceptEntries, he, if_true, Bool.and_eq_true] at h
      simp only [objInsert, he, if_true, cleanExceptEntries, BEq.refl, if_true,
        Bool.and_eq_true]
      exact ⟨hX, h.2⟩
    · have he' : (k' == k) = false := by
        cases hb : (k' == k) with
        | true => exact absurd hb he
        | false => rfl
      simp only [cleanExceptEntries, he', Bool.false_eq_true, if_false,
        Bool.and_eq_true] at h
      simp only [objInsert, he', Bool.false_eq_true, if_false, cleanExceptEntries,
        Bool.and_eq_true]
      exact ⟨h.1, ih h.2 hX⟩

theorem noEmptyEntries_of_match (k : String) (r : List String) :
    ∀ (kvs : List (String × Value)) (c : Value),
      cleanExceptEntries kvs k r = true → objGet kvs k = some c →
      noEmptyV c = true → noEmptyEntries kvs = true := by
  intro kvs
  induction kvs with
  | nil => intro c _ hg; exact fun _ => Option.noConfusion hg
  | cons e tail ih =>
    intro c h hg hc
    obtain ⟨k', v'⟩ := e
    by_cases he : (k' == k) = true
    · simp only [cleanExceptEntries, he, if_true, Bool.and_eq_true] at h
      simp only [objGet, List.find?_cons, he] at hg
      have hv : v' = c := by simpa using hg
      simp only [noEmptyEntries, Bool.and_eq_true]
      exact ⟨hv ▸ hc, h.2⟩
    · have he' : (k' == k) = false := by
        cases hb : (k' == k) with
        | true => exact absurd hb he
        | false => rfl
      simp only [cleanExceptEntries, he', Bool.false_eq_true, if_false,
        Bool.and_eq_true] at h
      simp only [objGet, List.find?_cons, he'] at hg
      simp only [noEmptyEntries, Bool.and_eq_true]
      exact ⟨h.1, ih c h.2 (by simpa [objGet] using hg) hc⟩

theorem bool_and_split {a b : Bool} (h : (a && b) = true) : a = true ∧ b = true := by
  constructor
  · cases a with
    | true => rfl
    | false => exact Bool.noConfusion h
  · cases b with
    | true => rfl
    | false =>
      cases a <;> exact Bool.noConfusion h

theorem unsetPath_vobj_shape (p : List String) (kvs : List (String × Value)) :
    ∃ m, unsetPath (.vobj kvs) p = .vobj m := by
  cases p with
  | nil => exact ⟨kvs, rfl⟩
  | cons k rest =>
    cases rest with
    | nil => exact ⟨objDelete kvs k, rfl⟩
    | cons r0 rs =>
      cases hg : objGet kvs k with
      | some c =>
        exact ⟨objInsert kvs k (unsetPath c (r0 :: rs)), by
          rw [unsetPath_vobj_cons2, hg]⟩
      | none => exact ⟨kvs, by rw [unsetPath_vobj_cons2, hg]⟩

theorem cleanExcept_unsetPath :
    ∀ (q : List String) (k : String) (v : Value),
      cleanExcept v (q ++ [k]) = true → cleanExcept (unsetPath v (q ++ [k])) q = true := by
  intro q
  induction q with
  | nil =>
    intro k v h
    cases v with
    | vobj kvs =>
      have h2 : (!kvs.isEmpty && cleanExceptEntries kvs k []) = true := h
      show noEmptyEntries (objDelete kvs k) = true
      exact cleanExceptEntries_objDelete k [] kvs (bool_and_split h2).2
    | vnull => exact h
    | vbool b => exact h
    | vnum n => exact h
    | vstr s => exact h
    | varr xs => exact h
  | cons k0 q' ihq =>
    intro k v h
    cases v with
    | vobj kvs =>
      have h2 : (!kvs.isEmpty && cleanExceptEntries kvs k0 (q' ++ [k])) = true := h
      have h3 := bool_and_split h2
      obtain ⟨r0, rs, hr⟩ : ∃ r0 rs, q' ++ [k] = r0 :: rs := by
        cases q' with
        | nil => exact ⟨k, [], rfl⟩
        | cons a b => exact ⟨a, b ++ [k], rfl⟩
      cases hg : objGet kvs k0 with
      | some c =>
        have hstep : unsetPath (.vobj kvs) (k0 :: (q' ++ [k])) =
            .vobj (objInsert kvs k0 (unsetPath c (q' ++ [k]))) := by
          rw [hr, unsetPath_vobj_cons2, hg]
        rw [show (k0 :: q') ++ [k] = k0 :: (q' ++ [k]) from rfl, hstep]
        show (!(objInsert kvs k0 (unsetPath c (q' ++ [k]))).isEmpty &&
          cleanExceptEntries (objInsert kvs k0 (unsetPath c (q' ++ [k]))) k0 q') = true
        have hc : cleanExcept c (q' ++ [k]) = true :=
          cleanExceptEntries_objGet k0 (q' ++ [k]) kvs c h3.2 hg
        have hX : cleanExcept (unsetPath c (q' ++ [k])) q' = true := ihq k c hc
        have hwalk := cleanExceptEntries_objInsert k0 (q' ++ [k]) q'
          (unsetPath c (q' ++ [k])) kvs h3.2 hX
        have hne : (objInsert kvs k0 (unsetPath c (q' ++ [k]))) ≠ [] :=
          objInsert_ne_nil _ _ _
        simp [hwalk, List.isEmpty_eq_false.mpr hne]
      | none =>
        have hstep : unsetPath (.vobj kvs) (k0 :: (q' ++ [k])) = .vobj kvs := by
          rw [hr, unsetPath_vobj_cons2, hg]
        rw [show (k0 :: q') ++ [k] = k0 :: (q' ++ [k]) from rfl, hstep]
        show (!kvs.isEmpty && cleanExceptEntries kvs k0 q') = true
        have hall : noEmptyEntries kvs = true :=
          cleanExceptEntries_no_match k0 (q' ++ [k]) kvs hg h3.2
        simp [h3.1, (cleanExcept_of_noEmpty q').2 kvs k0 hall]
    | vnull => exact h
    | vbool b => exact h
    | vnum n => exact h
    | vstr s => exact h
    | varr xs => exact h

theorem noEmptyV_of_cleanExcept_resolved :
    ∀ (q : List String) (v par : Value),
      cleanExcept v q = true → getPath v q = some par → jsIsEmpty par = false →
      noEmptyV v = true := by
  intro q
  induction q with
  | nil =>
    intro v par h hg hpe
    have hv : v = par := by
      rw [getPath_nil] at hg
      exact Option.some.inj hg
    subst hv
    cases v with
    | vobj kvs =>
      have hh : noEmptyEntries kvs = true := h
      have hke : kvs.isEmpty = false := hpe
      show (!kvs.isEmpty && noEmptyEntries kvs) = true
      simp [hke, hh]
    | vnull => rfl
    | vbool b => rfl
    | vnum n => rfl
    | vstr s => rfl
    | varr xs => exact h
  | cons k0 q' ihq =>
    intro v par h hg hpe
    cases v with
    | vobj kvs =>
      have h2 : (!kvs.isEmpty && cleanExceptEntries kvs k0 q') = true := h
      have h3 := bool_and_split h2
      rw [getPath_vobj_cons] at hg
      cases hgo : objGet kvs k0 with
      | none => rw [hgo] at hg; exact Option.noConfusion hg
      | some c =>
        rw [hgo] at hg
        have hg2 : getPath c q' = some par := hg
        have hc : cleanExcept c q' = true :=
          cleanExceptEntries_objGet k0 q' kvs c h3.2 hgo
        have hnc : noEmptyV c = true := ihq c par hc hg2 hpe
        show (!kvs.isEmpty && noEmptyEntries kvs) = true
        simp [h3.1, noEmptyEntries_of_match k0 q' kvs c h3.2 hgo hnc]
    | vnull => exact Option.noConfusion hg
    | vbool b => exact Option.noConfusion hg
    | vnum n => exact Option.noConfusion hg
    | vstr s => exact Option.noConfusion hg
    | varr xs => exact Option.noConfusion hg

theorem unset_preserves_clean :
    ∀ (n : Nat) (p : List String) (kvs : List (String × Value)),
      p.length ≤ n → p ≠ [] → cleanExcept (.vobj kvs) p = true →
      ∃ m, unset (.vobj kvs) p = .vobj m ∧ noEmptyEntries m = true := by
  intro n
  induction n with
  | zero =>
    intro p kvs hl hp _
    cases p with
    | nil => exact absurd rfl hp
    | cons a b => simp at hl
  | succ n ih =>
    intro p kvs hl hp hclean
    cases p with
    | nil => exact absurd rfl hp
    | cons k rest =>
      rw [unset_cons]
      obtain ⟨m1, hm1⟩ := unsetPath_vobj_shape (k :: rest) kvs
      cases rest with
      | nil =>
        have hd : ((k :: ([] : List String)).dropLast) = [] := rfl
        rw [hd]
        simp only [List.isEmpty_nil, if_true]
        have hstep : cleanExcept (unsetPath (.vobj kvs) [k]) [] = true :=
          cleanExcept_unsetPath [] k (.vobj kvs) hclean
        rw [hm1] at hstep ⊢
        have hent : noEmptyEntries m1 = true := hstep
        split
        · rw [unset_nil]
          exact ⟨m1, rfl, hent⟩
        · exact ⟨m1, rfl, hent⟩
      | cons r0 rs =>
        have hd : ((k :: r0 :: rs).dropLast) = k :: (r0 :: rs).dropLast := rfl
        rw [hd]
        have hne : (k :: (r0 :: rs).dropLast).isEmpty = false := rfl
        rw [hne]
        simp only [Bool.false_eq_true, if_false]
        have hlast : (r0 :: rs).dropLast ++ [(r0 :: rs).getLast (by simp)] = r0 :: rs :=
          List.dropLast_append_getLast (by simp)
        have hsplitp : k :: r0 :: rs =
            (k :: (r0 :: rs).dropLast) ++ [(r0 :: rs).getLast (by simp)] := by
          rw [List.cons_append, hlast]
        have hstep : cleanExcept (unsetPath (.vobj kvs) (k :: r0 :: rs))
            (k :: (r0 :: rs).dropLast) = true := by
          have := cleanExcept_unsetPath (k :: (r0 :: rs).dropLast)
            ((r0 :: rs).getLast (by simp)) (.vobj kvs) (by rw [← hsplitp]; exact hclean)
          rw [← hsplitp] at this
          exact this
        rw [hm1] at hstep
        have hplen : (k :: (r0 :: rs).dropLast).length ≤ n := by
          simp only [List.length_cons, List.length_dropLast] at hl ⊢
          omega
        rw [hm1]
        split
        · exact ih (k :: (r0 :: rs).dropLast) m1 hplen (by simp) hstep
        · rename_i hcond
          cases hgp : getPath (.vobj m1) (k :: (r0 :: rs).dropLast) with
          | none => rw [hgp] at hcond; exact absurd rfl hcond
          | some par =>
            rw [hgp] at hcond
            have hpe : jsIsEmpty par = false := by
              cases hb : jsIsEmpty par with
              | true => exact absurd hb hcond
              | false => rfl
            have hfull : noEmptyV (.vobj m1) = true :=
              noEmptyV_of_cleanExcept_resolved (k :: (r0 :: rs).dropLast)
                (.vobj m1) par hstep hgp hpe
            have h2 : (!m1.isEmpty && noEmptyEntries m1) = true := hfull
            exact ⟨m1, rfl, (bool_and_split h2).2⟩

theorem setPath_preserves_clean :
    ∀ (p : List String) (kvs : List (String × Value)) (v : Value),
      noEmptyEntries kvs = true → noEmptyV v = true →
      ∃ m, setPath (.vobj kvs) p v = .vobj m ∧ noEmptyEntries m = true ∧
        (p ≠ [] → m ≠ []) := by
  intro p
  induction p with
  | nil =>
    intro kvs v h _
    exact ⟨kvs, rfl, h, fun hc => absurd rfl hc⟩
  | cons k rest ih =>
    intro kvs v h hv
    cases rest with
    | nil =>
      refine ⟨objInsert kvs k v, rfl, noEmptyEntries_objInsert k v kvs h hv, ?_⟩
      intro _
      exact objInsert_ne_nil _ _ _
    | cons r0 rs =>
      have hbase : ∃ B, (match objGet kvs k with
          | some (.vobj ckvs) => Value.vobj ckvs
          | _ => Value.vobj []) = Value.vobj B ∧ noEmptyEntries B = true := by
        cases hg : objGet kvs k with
        | none => exact ⟨[], rfl, rfl⟩
        | some c =>
          cases c with
          | vobj ckvs =>
            have hce : noEmptyV (.vobj ckvs) = true := noEmptyEntries_objGet k kvs _ h hg
            have h2 : (!ckvs.isEmpty && noEmptyEntries ckvs) = true := hce
            exact ⟨ckvs, rfl, (bool_and_split h2).2⟩
          | vnull => exact ⟨[], rfl, rfl⟩
          | vbool b => exact ⟨[], rfl, rfl⟩
          | vnum n => exact ⟨[], rfl, rfl⟩
          | vstr s => exact ⟨[], rfl, rfl⟩
          | varr xs => exact ⟨[], rfl, rfl⟩
      obtain ⟨B, hB, hBc⟩ := hbase
      obtain ⟨m2, hm2, hm2c, hm2ne⟩ := ih B v hBc hv
      have hXne : m2 ≠ [] := hm2ne (by simp)
      have hXclean : noEmptyV (.vobj m2) = true := by
        show (!m2.isEmpty && noEmptyEntries m2) = true
        simp [List.isEmpty_eq_false.mpr hXne, hm2c]
      refine ⟨objInsert kvs k (.vobj m2), ?_, ?_, ?_⟩
      · rw [setPath_cons_cons, hB, hm2]
      · exact noEmptyEntries_objInsert k (.vobj m2) kvs h hXclean
      · intro _
        exact objInsert_ne_nil _ _ _

theorem update_step_clean (kvs : List (String × Value)) (p : List String) (v : Value)
    (h : noEmptyEntries kvs = true) (hv : v = .vnull ∨ noEmptyV v = true) :
    ∃ m, (updateFromArray (.vobj kvs) p v).doc = .vobj m ∧ noEmptyEntries m = true := by
  by_cases hnull : v = .vnull
  · subst hnull
    rw [updateFromArray_null]
    cases hcur : lodashGet (.vobj kvs) p with
    | none => exact ⟨kvs, rfl, h⟩
    | some w =>
      have hp : p ≠ [] := by
        intro hc
        subst hc
        exact Option.noConfusion hcur
      have hg : getPath (.vobj kvs) p = some w := by
        rw [← lodashGet_ne_nil _ _ hp]
        exact hcur
      cases w with
      | vnull => exact ⟨kvs, rfl, h⟩
      | vbool b =>
        refine unset_preserves_clean p.length p kvs (Nat.le_refl _) hp ?_
        obtain ⟨k, rest, rfl⟩ : ∃ k rest, p = k :: rest := by
          cases p with
          | nil => exact absurd rfl hp
          | cons a b => exact ⟨a, b, rfl⟩
        have hkne : kvs ≠ [] := by
          intro hc
          subst hc
          rw [getPath_vobj_cons] at hg
          exact Option.noConfusion hg
        show (!kvs.isEmpty && cleanExceptEntries kvs k rest) = true
        simp [List.isEmpty_eq_false.mpr hkne, (cleanExcept_of_noEmpty rest).2 kvs k h]
      | vnum nn =>
        refine unset_preserves_clean p.length p kvs (Nat.le_refl _) hp ?_
        obtain ⟨k, rest, rfl⟩ : ∃ k rest, p = k :: rest := by
          cases p with
          | nil => exact absurd rfl hp
          | cons a b => exact ⟨a, b, rfl⟩
        have hkne : kvs ≠ [] := by
          intro hc
          subst hc
          rw [getPath_vobj_cons] at hg
          exact Option.noConfusion hg
        show (!kvs.isEmpty && cleanExceptEntries kvs k rest) = true
        simp [List.isEmpty_eq_false.mpr hkne, (cleanExcept_of_noEmpty rest).2 kvs k h]
      | vstr s =>
        refine unset_preserves_clean p.length p kvs (Nat.le_refl _) hp ?_
        obtain ⟨k, rest, rfl⟩ : ∃ k rest, p = k :: rest := by
          cases p with
          | nil => exact absurd rfl hp
          | cons a b => exact ⟨a, b, rfl⟩
        have hkne : kvs ≠ [] := by
          intro hc
          subst hc
          rw [getPath_vobj_cons] at hg
          exact Option.noConfusion hg
        show (!kvs.isEmpty && cleanExceptEntries kvs k rest) = true
        simp [List.isEmpty_eq_false.mpr hkne, (cleanExcept_of_noEmpty rest).2 kvs k h]
      | varr xs =>
        refine unset_preserves_clean p.length p kvs (Nat.le_refl _) hp ?_
        obtain ⟨k, rest, rfl⟩ : ∃ k rest, p = k :: rest := by
          cases p with
          | nil => exact absurd rfl hp
          | cons a b => exact ⟨a, b, rfl⟩
        have hkne : kvs ≠ [] := by
          intro hc
          subst hc
          rw [getPath_vobj_cons] at hg
          exact Option.noConfusion hg
        show (!kvs.isEmpty && cleanExceptEntries kvs k rest) = true
        simp [List.isEmpty_eq_false.mpr hkne, (cleanExcept_of_noEmpty rest).2 kvs k h]
      | vobj m =>
        refine unset_preserves_clean p.length p kvs (Nat.le_refl _) hp ?_
        obtain ⟨k, rest, rfl⟩ : ∃ k rest, p = k :: rest := by
          cases p with
          | nil => exact absurd rfl hp
          | cons a b => exact ⟨a, b, rfl⟩
        have hkne : kvs ≠ [] := by
          intro hc
          subst hc
          rw [getPath_vobj_cons] at hg
          exact Option.noConfusion hg
        show (!kvs.isEmpty && cleanExceptEntries kvs k rest) = true
        simp [List.isEmpty_eq_false.mpr hkne, (cleanExcept_of_noEmpty rest).2 kvs k h]
  · have hvc : noEmptyV v = true := by
      rcases hv with hv | hv
      · exact absurd hv hnull
      · exact hv
    rw [updateFromArray_notnull _ _ _ hnull]
    split
    · exact ⟨kvs, rfl, h⟩
    · obtain ⟨m, hm, hmc, _⟩ := setPath_preserves_clean p kvs v h hvc
      exact ⟨m, hm, hmc⟩

/-- The document resulting from a sequence of `update` calls on an
initially empty DataCache. -/
def applyOps (ops : List (List String × Value)) : Value :=
  ops.foldl (fun doc op => (updateFromArray doc op.1 op.2).doc) (.vobj [])

theorem applyOps_clean_aux :
    ∀ (ops : List (List String × Value)) (kvs : List (String × Value)),
      noEmptyEntries kvs = true →
      (∀ op ∈ ops, op.2 = .vnull ∨ noEmptyV op.2 = true) →
      ∃ m, ops.foldl (fun doc op => (updateFromArray doc op.1 op.2).doc) (.vobj kvs) =
        .vobj m ∧ noEmptyEntries m = true := by
  intro ops
  induction ops with
  | nil => intro kvs h _; exact ⟨kvs, rfl, h⟩
  | cons op rest ih =>
    intro kvs h hall
    obtain ⟨m1, hm1, hm1c⟩ := update_step_clean kvs op.1 op.2 h (hall op (by simp))
    simp only [List.foldl_cons]
    rw [hm1]
    exact ih m1 hm1c (fun x hx => hall x (by simp [hx]))

/-- Claim C8 (amended): after every sequence of DataCache updates in which
each written value is either `null` or contains no empty object anywhere
inside it, the stored document contains no empty interior node — every
interior map has at least one entry — and each `unset` prunes all
ancestors that become empty. (The restriction on written values is forced
by the counterexample: writing a value that itself contains an empty
object, such as `update(['a'], {})`, stores that empty map verbatim.) -/
theorem claim8_no_empty_interior_amended (ops : List (List String × Value))
    (h : ∀ op ∈ ops, op.2 = .vnull ∨ noEmptyV op.2 = true) :
    ∃ m, applyOps ops = .vobj m ∧ noEmptyEntries m = true :=
  applyOps_clean_aux ops [] rfl h

/-- Witness for `claim8_no_empty_interior_amended` on the update sequence
`update(['a','b'], 5); update(['a','c'], 1); update(['a','b'], null)`. -/
theorem claim8_no_empty_interior_amended_witness :
    (∀ op ∈ [((["a", "b"] : List String), Value.vnum 5),
             ((["a", "c"] : List String), Value.vnum 1),
             ((["a", "b"] : List String), Value.vnull)],
      op.2 = .vnull ∨ noEmptyV op.2 = true) ∧
    ∃ m, applyOps [((["a", "b"] : List String), Value.vnum 5),
             ((["a", "c"] : List String), Value.vnum 1),
             ((["a", "b"] : List String), Value.vnull)] = .vobj m ∧
      noEmptyEntries m = true := by
  refine ⟨?_, claim8_no_empty_interior_amended _ ?_⟩ <;>
    · intro op hop
      fin_cases hop
      · exact Or.inr rfl
      · exact Or.inr rfl
      · exact Or.inl rfl

/-- Claim C8 (counterexample): the claim asserts that after every sequence
of updates no empty interior node persists; but the single update
`update(['a'], {})` stores the empty object, leaving `{a: {}}` in the
document, with the interior map at `a` having no entry. -/
theorem claim8_counterexample :
    applyOps [((["a"] : List String), Value.vobj [])] = .vobj [("a", .vobj [])] ∧
    getPath (applyOps [((["a"] : List String), Value.vobj [])]) ["a"] =
      some (.vobj []) ∧
    noEmptyEntries [("a", Value.vobj [])] = false := by
  exact ⟨rfl, rfl, rfl⟩

/-! ## Publication queue (MqttSync.js `addToQueue` / `_processQueue_rec`)

`publishQueue` is a JS `Map`, which remembers the insertion order of keys;
`Map.set` on an existing key replaces the value in place, keeping the
key's original position, and otherwise appends — the same semantics as
`objInsert`. `_enqueue(topic, value)` calls `addToQueue` and triggers the
drain; `_processQueue_rec` publishes the first entry, deletes it, and
recurses (the disconnected-retry path keeps the head and retries — not
modelled here, it does not change the published order). The drain fuel is
one unit per entry. -/

/-- Embeds `addToQueue(topic, value)`: `this.publishQueue.set(topic, value)`. -/
def addToQueue (queue : List (String × Value)) (topic : String) (value : Value) :
    List (String × Value) :=
  objInsert queue topic value

/-- Embeds `Map.delete(topic)`: remove the (unique) entry with that key. -/
def mapDelete (m : List (String × Value)) (k : String) : List (String × Value) :=
  m.eraseP (fun e => e.1 == k)

/-- Embeds `_processQueue_rec` with a connected client: publish the head
entry, delete it from the queue, recurse; returns the published sequence. -/
def processQueueRec : Nat → List (String × Value) → List (String × Value)
  | _, [] => []
  | 0, _ => []
  | fuel + 1, (k, v) :: rest => (k, v) :: processQueueRec fuel (mapDelete ((k, v) :: rest) k)

/-- The drain with sufficient fuel. -/
def drainQueue (q : List (String × Value)) : List (String × Value) :=
  processQueueRec q.length q

/-- The queue state after a sequence of `_enqueue` calls on an initially
empty queue. -/
def enqueueAll (ops : List (String × Value)) : List (String × Value) :=
  ops.foldl (fun q op => addToQueue q op.1 op.2) []

/-- The value of the last enqueue for a topic in a sequence of enqueues. -/
def lastValue (ops : List (String × Value)) (t : String) : Option Value :=
  ops.foldl (fun acc op => if op.1 == t then some op.2 else acc) none

/-- The topics in queue order. -/
def keysOf (m : List (String × Value)) : List String :=
  m.map Prod.fst

/-- The subsequence of first occurrences of a topic sequence, skipping
topics already seen. -/
def firstOccurrences (seen : List String) : List String → List String
  | [] => []
  | k :: rest =>
    if seen.any (fun x => x == k) then firstOccurrences seen rest
    else k :: firstOccurrences (k :: seen) rest

theorem mapDelete_cons_self (k : String) (v : Value) (rest : List (String × Value)) :
    mapDelete ((k, v) :: rest) k = rest := by
  simp [mapDelete, List.eraseP_cons_of_pos]

theorem drainQueue_eq : ∀ (q : List (String × Value)), drainQueue q = q := by
  intro q
  induction q with
  | nil => rfl
  | cons e rest ih =>
    obtain ⟨k, v⟩ := e
    show processQueueRec (rest.length + 1) ((k, v) :: rest) = (k, v) :: rest
    simp only [processQueueRec, mapDelete_cons_self]
    exact congrArg ((k, v) :: ·) ih

theorem objGet_objInsert_general {α : Type} (k t : String) (v : α) :
    ∀ (q : List (String × α)),
      objGet (objInsert q k v) t = if (k == t) then some v else objGet q t := by
  intro q
  induction q with
  | nil =>
    by_cases hkt : (k == t) = true
    · simp [objInsert, objGet, hkt]
    · have hkt' : (k == t) = false := by
        cases hb : (k == t) with
        | true => exact absurd hb hkt
        | false => rfl
      simp [objInsert, objGet, hkt']
  | cons e rest ih =>
    obtain ⟨k', v'⟩ := e
    by_cases he : (k' == k) = true
    · have hkk : k' = k := by simpa using he
      subst hkk
      by_cases hkt : (k' == t) = true
      · simp [objInsert, objGet, List.find?_cons, hkt]
      · have hkt' : (k' == t) = false := by
          cases hb : (k' == t) with
          | true => exact absurd hb hkt
          | false => rfl
        simp [objInsert, objGet, List.find?_cons, hkt', he]
    · have he' : (k' == k) = false := by
        cases hb : (k' == k) with
        | true => exact absurd hb he
        | false => rfl
      by_cases het : (k' == t) = true
      · have hkt' : (k == t) = false := by
          have h1 : k' = t := by simpa using het
          subst h1
          cases hb : (k == k') with
          | true =>
            have hkk : k = k' := by simpa using hb
            subst hkk
            simp at he'
          | false => rfl
        simp [objInsert, he', objGet, List.find?_cons, het, hkt']
      · have het' : (k' == t) = false := by
          cases hb : (k' == t) with
          | true => exact absurd hb het
          | false => rfl
        simp only [objInsert, he', Bool.false_eq_true, if_false]
        simp only [objGet, List.find?_cons, het']
        simpa [objGet] using ih

theorem objGet_enqueue_foldl (t : String) :
    ∀ (ops : List (String × Value)) (q : List (String × Value)),
      objGet (ops.foldl (fun q op => addToQueue q op.1 op.2) q) t =
        ops.foldl (fun acc op => if op.1 == t then some op.2 else acc) (objGet q t) := by
  intro ops
  induction ops with
  | nil => intro q; rfl
  | cons op rest ih =>
    intro q
    obtain ⟨k, v⟩ := op
    simp only [List.foldl_cons]
    rw [ih (addToQueue q k v)]
    show _ = rest.foldl (fun acc op => if op.1 == t then some op.2 else acc)
      (if (k == t) then some v else objGet q t)
    rw [show objGet (addToQueue q k v) t = if (k == t) then some v else objGet q t from
      objGet_objInsert_general k t v q]

theorem keysOf_objInsert_mem (k : String) (v : Value) :
    ∀ (q : List (String × Value)), (q.any (fun e => e.1 == k)) = true →
      keysOf (objInsert q k v) = keysOf q := by
  intro q
  induction q with
  | nil => intro h; simp at h
  | cons e rest ih =>
    intro h
    obtain ⟨k', v'⟩ := e
    by_cases he : (k' == k) = true
    · have hkk : k' = k := by simpa using he
      subst hkk
      simp [objInsert, keysOf]
    · have he' : (k' == k) = false := by
        cases hb : (k' == k) with
        | true => exact absurd hb he
        | false => rfl
      simp only [List.any_cons, he', Bool.false_or] at h
      simp only [objInsert, he', Bool.false_eq_true, if_false, keysOf, List.map_cons]
      exact congrArg (k' :: ·) (ih h)

theorem objInsert_fresh_of_not_any (k : String) (v : Value)
    (q : List (String × Value)) (h : (q.any (fun e => e.1 == k)) = false) :
    objInsert q k v = q ++ [(k, v)] := by
  apply objInsert_fresh
  intro e he hc
  have hek : (e.1 == k) = true := by simp [hc]
  have hany : (q.any (fun e => e.1 == k)) = true := List.any_eq_true.mpr ⟨e, he, hek⟩
  rw [h] at hany
  exact Bool.noConfusion hany

theorem any_eq_keys_any (k : String) :
    ∀ (q : List (String × Value)),
      (q.any (fun e => e.1 == k)) = ((keysOf q).any (fun x => x == k)) := by
  intro q
  induction q with
  | nil => rfl
  | cons e rest ih => simp [keysOf, List.any_cons, ih]

theorem firstOccurrences_congr :
    ∀ (l seen1 seen2 : List String),
      (∀ x, (seen1.any (fun y => y == x)) = (seen2.any (fun y => y == x))) →
      firstOccurrences seen1 l = firstOccurrences seen2 l := by
  intro l
  induction l with
  | nil => intro _ _ _; rfl
  | cons k rest ih =>
    intro seen1 seen2 h
    simp only [firstOccurrences, h k]
    split
    · exact ih seen1 seen2 h
    · refine congrArg (k :: ·) (ih (k :: seen1) (k :: seen2) ?_)
      intro x
      simp [List.any_cons, h x]

theorem keys_enqueue_foldl :
    ∀ (ops : List (String × Value)) (q : List (String × Value)),
      keysOf (ops.foldl (fun q op => addToQueue q op.1 op.2) q) =
        keysOf q ++ firstOccurrences (keysOf q) (ops.map Prod.fst) := by
  intro ops
  induction ops with
  | nil => intro q; simp [firstOccurrences]
  | cons op rest ih =>
    intro q
    obtain ⟨k, v⟩ := op
    simp only [List.foldl_cons, List.map_cons]
    by_cases hmem : (q.any (fun e => e.1 == k)) = true
    · have hk : keysOf (addToQueue q k v) = keysOf q := keysOf_objInsert_mem k v q hmem
      rw [ih (addToQueue q k v), hk]
      have hseen : ((keysOf q).any (fun x => x == k)) = true := by
        rw [← any_eq_keys_any]
        exact hmem
      simp only [firstOccurrences, hseen, if_true]
    · have hmem' : (q.any (fun e => e.1 == k)) = false := by
        cases hb : (q.any (fun e => e.1 == k)) with
        | true => exact absurd hb hmem
        | false => rfl
      have hfresh : addToQueue q k v = q ++ [(k, v)] :=
        objInsert_fresh_of_not_any k v q hmem'
      rw [ih (addToQueue q k v), hfresh]
      have hkeys : keysOf (q ++ [(k, v)]) = keysOf q ++ [k] := by
        simp [keysOf]
      rw [hkeys]
      have hseen : ((keysOf q).any (fun x => x == k)) = false := by
        rw [← any_eq_keys_any]
        exact hmem'
      simp only [firstOccurrences, hseen, Bool.false_eq_true, if_false]
      rw [List.append_assoc]
      refine congrArg (keysOf q ++ ·) ?_
      refine congrArg (fun l => [k] ++ l) ?_
      apply firstOccurrences_congr
      intro x
      simp [List.any_cons, List.any_append, Bool.or_comm]

/-- Claim C6 (confirmed): for every sequence of enqueues starting from an
empty publication queue: re-enqueuing a topic replaces its value while
keeping the topic's original insertion position (the queue's topics are
exactly the first occurrences of the enqueued topics, in order); each
pending value is the most recently enqueued value for its topic; and the
drain publishes the queue's entries for the distinct topics in insertion
order — so an older value is never published after (and never overwrites)
a newer one at the same topic. -/
theorem claim6_publish_queue (ops : List (String × Value)) :
    keysOf (enqueueAll ops) = firstOccurrences [] (ops.map Prod.fst) ∧
    (∀ t, objGet (enqueueAll ops) t = lastValue ops t) ∧
    drainQueue (enqueueAll ops) = enqueueAll ops := by
  refine ⟨?_, ?_, drainQueue_eq _⟩
  · have := keys_enqueue_foldl ops []
    simpa [keysOf, enqueueAll] using this
  · intro t
    have := objGet_enqueue_foldl t ops []
    simpa [enqueueAll, lastValue, objGet] using this

example :
    enqueueAll [("/a", .vnum 1), ("/b", .vnum 2), ("/a", .vnum 3)] =
      [("/a", .vnum 3), ("/b", .vnum 2)] := rfl

example :
    drainQueue [("/a", .vnum 3), ("/b", .vnum 2)] =
      [("/a", .vnum 3), ("/b", .vnum 2)] := rfl

/-! ## MqttSync constructor: heartbeat gating of `onReady` (claim C7)

The constructor's message handler runs, for the heartbeat topic,
`if (this.heartbeats == 1 && !migrate && onReady) onReady();` followed by
`this.heartbeats++`; and after installing the handler it runs
`migrate?.length > 0 && this.migrate(migrate, ...)`. The two guards
disagree on the empty array: `!migrate` is false for `[]` (an empty JS
array is truthy) while `migrate?.length > 0` is also false, so neither
path can invoke `onReady`. Only the observable counters are modelled; the
migration descriptors' content is irrelevant, so they are `Unit`. -/

structure SyncObservable where
  heartbeats : Nat
  onReadyCalls : Nat
  migrateStarted : Bool

/-- JS truthiness of the `migrate` option: `undefined` (`none`) is falsy;
every array — including the empty array — is truthy. -/
def jsTruthyArray : Option (List Unit) → Bool
  | none => false
  | some _ => true

/-- Embeds the constructor guard `migrate?.length > 0`. -/
def migrateGuard : Option (List Unit) → Bool
  | none => false
  | some l => decide (l.length > 0)

/-- State right after the constructor ran (no heartbeat yet). -/
def constructSync (migrate : Option (List Unit)) : SyncObservable :=
  { heartbeats := 0, onReadyCalls := 0, migrateStarted := migrateGuard migrate }

/-- Embeds one delivery of a `$SYS/broker/uptime` message: fire `onReady`
when `heartbeats == 1 && !migrate && onReady`, then increment
`heartbeats`. -/
def onHeartbeatMessage (migrate : Option (List Unit)) (hasOnReady : Bool)
    (s : SyncObservable) : SyncObservable :=
  let fire := (s.heartbeats == 1) && !(jsTruthyArray migrate) && hasOnReady
  { s with
    onReadyCalls := s.onReadyCalls + (if fire then 1 else 0),
    heartbeats := s.heartbeats + 1 }

/-- The observable state after construction and `n` heartbeat messages. -/
def runHeartbeats (migrate : Option (List Unit)) (hasOnReady : Bool) : Nat → SyncObservable
  | 0 => constructSync migrate
  | n + 1 => onHeartbeatMessage migrate hasOnReady (runHeartbeats migrate hasOnReady n)

theorem runHeartbeats_heartbeats (migrate : Option (List Unit)) (hasOnReady : Bool) :
    ∀ n, (runHeartbeats migrate hasOnReady n).heartbeats = n := by
  intro n
  induction n with
  | zero => rfl
  | succ n ih => simp [runHeartbeats, onHeartbeatMessage, ih]

/-- Claim C7 (code bug): with `migrate: []` and an `onReady` callback,
`onReady` is never invoked, no matter how many broker heartbeats arrive —
the heartbeat branch requires `!migrate`, which is false for the truthy
empty array, and the constructor's migration branch requires
`migrate.length > 0`, also false — while with `migrate` omitted the same
state machine calls `onReady` exactly once from the second heartbeat on.
The claim (and the spec, and `migrate()`'s own empty-list handling
`if (toGo == 0) onReady && onReady()`) say the empty migration should
complete immediately and `onReady` should still fire. -/
theorem claim7_empty_migrate_never_ready :
    (∀ n, (runHeartbeats (some []) true n).onReadyCalls = 0) ∧
    (constructSync (some [])).migrateStarted = false ∧
    (∀ n, (runHeartbeats none true (n + 2)).onReadyCalls = 1) := by
  refine ⟨?_, rfl, ?_⟩
  · intro n
    induction n with
    | zero => rfl
    | succ n ih =>
      show (onHeartbeatMessage (some []) true (runHeartbeats (some []) true n)).onReadyCalls = 0
      simp only [onHeartbeatMessage, jsTruthyArray, Bool.not_true, Bool.and_false,
        Bool.false_and]
      simpa using ih
  · intro n
    induction n with
    | zero => rfl
    | succ n ih =>
      show (onHeartbeatMessage none true (runHeartbeats none true (n + 2))).onReadyCalls = 1
      simp only [onHeartbeatMessage]
      rw [runHeartbeats_heartbeats]
      have hne : ((n + 2 : Nat) == 1) = false := by
        simp
      simp only [hne, Bool.false_and]
      simpa using ih

/-! ## Payload parsing (common.js `mqttParsePayload`) and the subscribed
sync branch of the MqttSync message handler (claim C3)

`mqttParsePayload` is
`payload.length == 0 ? null : JSON.parse(payload.toString('utf-8'))`;
`JSON.parse` is a host builtin, modelled by the executable recursive
descent parser `jsonParse` below (strings with the common escapes but no
`\u`, and integer numerals — fractional and exponent forms, which no
claim exercises, are not modelled). A failed parse is a thrown
`SyntaxError`, modelled as `Except.error`. -/

def skipWs : List Char → List Char
  | [] => []
  | c :: rest =>
    if c = ' ' ∨ c = '\t' ∨ c = '\n' ∨ c = '\r' then skipWs rest else c :: rest

def digitsAux : Nat → List Char → (Nat × List Char)
  | acc, [] => (acc, [])
  | acc, c :: rest =>
    if c.isDigit then digitsAux (acc * 10 + (c.toNat - 48)) rest else (acc, c :: rest)

def parseNat : List Char → Option (Nat × List Char)
  | [] => none
  | c :: rest => if c.isDigit then some (digitsAux (c.toNat - 48) rest) else none

def parseStringChars : List Char → Option (List Char × List Char)
  | [] => none
  | '"' :: rest => some ([], rest)
  | '\\' :: e :: rest =>
    (match e with
     | '"' => some '"'
     | '\\' => some '\\'
     | '/' => some '/'
     | 'n' => some '\n'
     | 't' => some '\t'
     | 'r' => some '\r'
     | 'b' => some (Char.ofNat 8)
     | 'f' => some (Char.ofNat 12)
     | _ => none).bind
      (fun c => (parseStringChars rest).map
        (fun r : List Char × List Char => (c :: r.1, r.2)))
  | c :: rest =>
    (parseStringChars rest).map (fun r : List Char × List Char => (c :: r.1, r.2))

mutual

def parseVal : Nat → List Char → Option (Value × List Char)
  | 0, _ => none
  | fuel + 1, l =>
    match skipWs l with
    | 'n' :: 'u' :: 'l' :: 'l' :: rest => some (.vnull, rest)
    | 't' :: 'r' :: 'u' :: 'e' :: rest => some (.vbool true, rest)
    | 'f' :: 'a' :: 'l' :: 's' :: 'e' :: rest => some (.vbool false, rest)
    | '"' :: rest => (parseStringChars rest).map (fun r => (.vstr ⟨r.1⟩, r.2))
    | '[' :: rest =>
      (match skipWs rest with
       | ']' :: r2 => some (.varr [], r2)
       | _ => (parseElems fuel rest).map (fun r => (.varr r.1, r.2)))
    | '{' :: rest =>
      (match skipWs rest with
       | '}' :: r2 => some (.vobj [], r2)
       | _ => (parseMembers fuel rest).map (fun r => (.vobj r.1, r.2)))
    | '-' :: rest =>
      (parseNat rest).map (fun r => (.vnum (-(r.1 : Int)), r.2))
    | c :: rest =>
      if c.isDigit then (parseNat (c :: rest)).map (fun r => (.vnum (r.1 : Int), r.2))
      else none
    | [] => none

def parseElems : Nat → List Char → Option (List Value × List Char)
  | 0, _ => none
  | fuel + 1, l =>
    match parseVal fuel l with
    | none => none
    | some (v, r) =>
      match skipWs r with
      | ',' :: r2 => (parseElems fuel r2).map (fun r3 => (v :: r3.1, r3.2))
      | ']' :: r2 => some ([v], r2)
      | _ => none

def parseMembers : Nat → List Char → Option (List (String × Value) × List Char)
  | 0, _ => none
  | fuel + 1, l =>
    match skipWs l with
    | '"' :: rest =>
      match parseStringChars rest with
      | none => none
      | some (key, r1) =>
        match skipWs r1 with
        | ':' :: r2 =>
          match parseVal fuel r2 with
          | none => none
          | some (v, r3) =>
            match skipWs r3 with
            | ',' :: r4 => (parseMembers fuel r4).map (fun r5 => ((⟨key⟩, v) :: r5.1, r5.2))
            | '}' :: r4 => some ([(⟨key⟩, v)], r4)
            | _ => none
        | _ => none
    | _ => none

end

/-- The model of the host `JSON.parse`: `some` on success, `none` for a
thrown `SyntaxError`. -/
def jsonParse (s : String) : Option Value :=
  match parseVal (s.length + 1) s.data with
  | some (v, rest) => if (skipWs rest).isEmpty then some v else none
  | none => none

example : jsonParse "null" = some .vnull := rfl
example : jsonParse " 42 " = some (.vnum 42) := rfl
example : jsonParse "-7" = some (.vnum (-7)) := rfl
example : jsonParse "[1, 2]" = some (.varr [.vnum 1, .vnum 2]) := rfl
example : jsonParse "x" = none := rfl
example : jsonParse "" = none := rfl
example :
    jsonParse "\x7b \x22a\x22 : [true, \x22b\x22], \x22c\x22 : null \x7d" =
      some (.vobj [("a", .varr [.vbool true, .vstr "b"]), ("c", .vnull)]) := rfl

/-- Embeds `mqttParsePayload(payload)` (common.js): a zero-length payload
is `null`; anything else goes through `JSON.parse`, which throws on
invalid input. -/
def mqttParsePayload (payload : String) : Except String Value :=
  if payload.length == 0 then .ok .vnull
  else
    match jsonParse payload with
    | some v => .ok v
    | none => .error "SyntaxError"

/-- Embeds the `isSubscribed` branch of the MqttSync constructor's message
handler: parse the payload, then `this.data.update(topic, json)`; a parse
exception propagates and no update is applied. Returns the new document
and the flat changes handed to `onChange`. -/
def handleSyncMessage (doc : Value) (topic : String) (payload : String) :
    Except String (Value × List (String × Value)) :=
  match mqttParsePayload payload with
  | .error e => .error e
  | .ok json =>
    let r := updateFromTopic doc topic json
    .ok (r.doc, r.changes)

/-- Claim C3 (counterexample): the claim asserts that a non-empty payload
that is not valid JSON parses to `null` and is applied as a deletion;
but `mqttParsePayload` calls `JSON.parse` on every non-empty payload, so
the payload `"x"` raises a `SyntaxError` and no update is applied. -/
theorem claim3_counterexample :
    mqttParsePayload "x" = .error "SyntaxError" ∧
    handleSyncMessage (.vobj [("a", .vnum 1)]) "/a" "x" = .error "SyntaxError" ∧
    mqttParsePayload "x" ≠ .ok .vnull := by
  refine ⟨rfl, rfl, ?_⟩
  intro h
  exact Except.noConfusion h

theorem updateFromArray_null_result (doc : Value) (p : List String) (hp : p ≠ [])
    (w : Value) (hw : getPath doc p = some w) (hwn : w ≠ .vnull) :
    updateFromArray doc p .vnull =
      ⟨unset doc p, [(pathToTopic p, .vnull)],
        some ([(pathToTopic p, .vnull)], [(pathToTopic p, .vnull)])⟩ := by
  rw [updateFromArray_null, lodashGet_ne_nil _ _ hp, hw]
  cases w with
  | vnull => exact absurd rfl hwn
  | vbool b => rfl
  | vnum n => rfl
  | vstr s => rfl
  | varr x => rfl
  | vobj m => rfl

/-- Claim C3 (amended): on a subscribed topic, only the EMPTY payload
parses to `null` and is applied to the DataCache as a deletion at that
topic (removing a stored non-null value); a non-empty payload that fails
JSON parsing makes `JSON.parse` throw inside the message handler, and no
update is applied. -/
theorem claim3_payload_amended (kvs : List (String × Value)) (topic : String)
    (hp : topicToPath topic ≠ [])
    (w : Value) (hw : getPath (.vobj kvs) (topicToPath topic) = some w)
    (hwn : w ≠ .vnull) :
    (handleSyncMessage (.vobj kvs) topic "" =
        .ok (unset (.vobj kvs) (topicToPath topic),
             [(pathToTopic (topicToPath topic), .vnull)]) ∧
      getPath (unset (.vobj kvs) (topicToPath topic)) (topicToPath topic) = none) ∧
    (∀ payload : String, payload.length ≠ 0 → jsonParse payload = none →
      handleSyncMessage (.vobj kvs) topic payload = .error "SyntaxError") := by
  constructor
  · constructor
    · show (match mqttParsePayload "" with
        | Except.error e => Except.error e
        | Except.ok json =>
          let r := updateFromTopic (.vobj kvs) topic json
          Except.ok (r.doc, r.changes)) = _
      have h0 : mqttParsePayload "" = .ok .vnull := rfl
      rw [h0]
      show Except.ok ((updateFromArray (.vobj kvs) (topicToPath topic) .vnull).doc,
        (updateFromArray (.vobj kvs) (topicToPath topic) .vnull).changes) = _
      rw [updateFromArray_null_result (.vobj kvs) (topicToPath topic) hp w hw hwn]
    · exact unset_getPath_self (topicToPath topic).length _ (Nat.le_refl _) hp _
  · intro payload hlen hparse
    show (match mqttParsePayload payload with
      | Except.error e => Except.error e
      | Except.ok json =>
        let r := updateFromTopic (.vobj kvs) topic json
        Except.ok (r.doc, r.changes)) = _
    have h1 : mqttParsePayload payload = .error "SyntaxError" := by
      unfold mqttParsePayload
      have hfalse : (payload.length == 0) = false := by
        simp [hlen]
      rw [hfalse]
      simp only [Bool.false_eq_true, if_false, hparse]
    rw [h1]

/-- Witness for `claim3_payload_amended` at topic `/a` with a stored `1`:
the empty payload deletes the entry, and the payload `"x"` raises. -/
theorem claim3_payload_amended_witness :
    topicToPath "/a" ≠ [] ∧
    getPath (.vobj [("a", .vnum 1)]) (topicToPath "/a") = some (.vnum 1) ∧
    ("x" : String).length ≠ 0 ∧ jsonParse "x" = none ∧
    (handleSyncMessage (.vobj [("a", .vnum 1)]) "/a" "" =
        .ok (unset (.vobj [("a", .vnum 1)]) (topicToPath "/a"),
             [(pathToTopic (topicToPath "/a"), .vnull)]) ∧
      getPath (unset (.vobj [("a", .vnum 1)]) (topicToPath "/a")) (topicToPath "/a") =
        none) ∧
    handleSyncMessage (.vobj [("a", .vnum 1)]) "/a" "x" = .error "SyntaxError" := by
  refine ⟨by decide, rfl, by decide, rfl, ?_, ?_⟩
  · exact (claim3_payload_amended [("a", .vnum 1)] "/a" (by decide) (.vnum 1) rfl
      (by intro h; exact Value.noConfusion h)).1
  · exact (claim3_payload_amended [("a", .vnum 1)] "/a" (by decide) (.vnum 1) rfl
      (by intro h; exact Value.noConfusion h)).2 "x" (by decide) rfl

/-! ## RPC (MqttSync.js `register` / `call` / `handleRPCRequest` /
`handleRPCResponse`, claim C9)

Wire payloads are modelled structurally (`JSON.stringify` on the sender
and `mqttParsePayload` on the receiver are inverse host functions for
these object payloads). A callback registered by `call` is identified by
a number; `call` without a callback stores the future's `resolve`,
modelled as a distinct constructor whose firing is recorded in
`resolutions`. The handler registry and callback registry are the JS
objects `rpcHandlers` / `rpcCallbacks`. -/

inductive RpcCb where
  | user (id : Nat)
  | futureResolve (id : Nat)

structure RpcState where
  subscriptions : List String
  requestsPublished : List (String × Value)
  responsesPublished : List (String × Value)
  rpcHandlers : List (String × (Value → Value))
  rpcCallbacks : List (String × RpcCb)
  invocations : List (Nat × Value)
  resolutions : List (Nat × Value)

/-- JS property read `json.field` with `undefined` collapsed to `null`
(the modelled payloads always carry the field). -/
def jsGetField (v : Value) (k : String) : Value :=
  match v with
  | .vobj kvs => (objGet kvs k).getD .vnull
  | _ => .vnull

/-- JS template interpolation of a string-valued field. -/
def jsToString : Value → String
  | .vstr s => s
  | _ => ""

/-- Embeds JS `String.prototype.replace` with a string pattern: replace
only the FIRST occurrence. -/
def jsReplaceFirst (pat rep : List Char) : Nat → List Char → List Char
  | _, [] => []
  | 0, l => l
  | n + 1, c :: rest =>
    if pat ≠ [] ∧ pat.isPrefixOf (c :: rest) then rep ++ (c :: rest).drop pat.length
    else c :: jsReplaceFirst pat rep n rest

def strReplaceFirst (pat rep s : String) : String :=
  ⟨jsReplaceFirst pat.data rep.data s.data.length s.data⟩

example : strReplaceFirst "/request" "/response" "/sq/request" = "/sq/response" := by decide

/-- Embeds `register(command, handler)`: subscribe `command/request` and
record the handler. -/
def rpcRegister (command : String) (handler : Value → Value) (s : RpcState) : RpcState :=
  { s with
    rpcHandlers := objInsert s.rpcHandlers (command ++ "/request") handler,
    subscriptions := s.subscriptions ++ [command ++ "/request"] }

/-- Embeds `call(command, args, callback)` with the generated correlation
id passed explicitly: subscribe `command/response/<id>`, publish the
request `{id, args}`, store the callback (or the future's resolver). -/
def rpcCall (command : String) (args : Value) (id : String) (cb : RpcCb)
    (s : RpcState) : RpcState :=
  let responseTopic := command ++ "/response/" ++ id
  { s with
    subscriptions := s.subscriptions ++ [responseTopic],
    requestsPublished := s.requestsPublished ++
      [(command ++ "/request", .vobj [("id", .vstr id), ("args", args)])],
    rpcCallbacks := objInsert s.rpcCallbacks responseTopic cb }

/-- Embeds `handleRPCRequest(topic, json)` with a synchronous handler:
run the handler on `json.args` and publish `{id, result}` at
`topic.replace('/request', '/response') + '/' + json.id`. -/
def handleRPCRequest (topic : String) (json : Value) (s : RpcState) : RpcState :=
  match objGet s.rpcHandlers topic with
  | none => s
  | some handler =>
    let result := handler (jsGetField json "args")
    let responseTopic :=
      strReplaceFirst "/request" "/response" topic ++ "/" ++ jsToString (jsGetField json "id")
    { s with
      responsesPublished := s.responsesPublished ++
        [(responseTopic, .vobj [("id", jsGetField json "id"), ("result", result)])] }

/-- Embeds `handleRPCResponse(topic, json)`: invoke the stored callback
with `json.result`, delete the callback entry, and unsubscribe the
response topic from the client. -/
def handleRPCResponse (topic : String) (json : Value) (s : RpcState) : RpcState :=
  match objGet s.rpcCallbacks topic with
  | none => s
  | some cb =>
    let result := jsGetField json "result"
    let s1 :=
      match cb with
      | .user n => { s with invocations := s.invocations ++ [(n, result)] }
      | .futureResolve n => { s with resolutions := s.resolutions ++ [(n, result)] }
    { s1 with
      rpcCallbacks := objDelete s1.rpcCallbacks topic,
      subscriptions := s1.subscriptions.filter (fun t => t != topic) }

/-- Embeds the RPC branches of the constructor's message classifier: a
registered request handler wins, then a registered response callback. -/
def dispatchRpcMessage (topic : String) (json : Value) (s : RpcState) : RpcState :=
  if (objGet s.rpcHandlers topic).isSome then handleRPCRequest topic json s
  else if (objGet s.rpcCallbacks topic).isSome then handleRPCResponse topic json s
  else s

theorem requestTopic_ne_responseTopic (cmd id : String) :
    ((cmd ++ "/request") == (cmd ++ "/response/" ++ id)) = false := by
  apply beq_eq_false_iff_ne.mpr
  intro heq
  have hd := congrArg String.data heq
  simp only [String.data_append, List.append_assoc] at hd
  have h2 := List.append_cancel_left hd
  have h3 : ('/' :: 'r' :: 'e' :: 'q' :: 'u' :: 'e' :: 's' :: 't' :: []) =
      ('/' :: 'r' :: 'e' :: 's' :: 'p' :: 'o' :: 'n' :: 's' :: 'e' :: '/' :: []) ++
        id.data := h2
  simp at h3

theorem respTopic_append_eq (cmd id : String) :
    (cmd ++ "/response") ++ "/" ++ id = cmd ++ "/response/" ++ id := by
  have hdata : ((cmd ++ "/response") ++ "/" ++ id).data =
      (cmd ++ "/response/" ++ id).data := by
    simp [String.data_append, List.append_assoc]
  exact congrArg String.mk hdata

theorem dispatch_request_eq (s : RpcState) (topic : String) (json : Value)
    (handler : Value → Value) (h : objGet s.rpcHandlers topic = some handler) :
    dispatchRpcMessage topic json s =
      { s with
        responsesPublished := s.responsesPublished ++
          [(strReplaceFirst "/request" "/response" topic ++ "/" ++
              jsToString (jsGetField json "id"),
            .vobj [("id", jsGetField json "id"),
                   ("result", handler (jsGetField json "args"))])] } := by
  unfold dispatchRpcMessage handleRPCRequest
  rw [h]
  rfl

theorem dispatch_response_user_eq (s : RpcState) (topic : String) (json : Value)
    (n : Nat) (hh : objGet s.rpcHandlers topic = none)
    (hc : objGet s.rpcCallbacks topic = some (.user n)) :
    dispatchRpcMessage topic json s =
      { s with
        invocations := s.invocations ++ [(n, jsGetField json "result")],
        rpcCallbacks := objDelete s.rpcCallbacks topic,
        subscriptions := s.subscriptions.filter (fun t => t != topic) } := by
  unfold dispatchRpcMessage handleRPCResponse
  rw [hh, hc]
  rfl

theorem dispatch_response_future_eq (s : RpcState) (topic : String) (json : Value)
    (n : Nat) (hh : objGet s.rpcHandlers topic = none)
    (hc : objGet s.rpcCallbacks topic = some (.futureResolve n)) :
    dispatchRpcMessage topic json s =
      { s with
        resolutions := s.resolutions ++ [(n, jsGetField json "result")],
        rpcCallbacks := objDelete s.rpcCallbacks topic,
        subscriptions := s.subscriptions.filter (fun t => t != topic) } := by
  unfold dispatchRpcMessage handleRPCResponse
  rw [hh, hc]
  rfl

/-- The scenario of claim C9: register a command handler, make a call
with correlation id `id`, deliver the request message to the registered
instance, then deliver the response message it published. -/
def rpcAfterCall (s0 : RpcState) (cmd : String) (handler : Value → Value)
    (args : Value) (id : String) (cb : RpcCb) : RpcState :=
  rpcCall cmd args id cb (rpcRegister cmd handler s0)

def rpcAfterRequest (s0 : RpcState) (cmd : String) (handler : Value → Value)
    (args : Value) (id : String) (cb : RpcCb) : RpcState :=
  dispatchRpcMessage (cmd ++ "/request") (.vobj [("id", .vstr id), ("args", args)])
    (rpcAfterCall s0 cmd handler args id cb)

def rpcAfterResponse (s0 : RpcState) (cmd : String) (handler : Value → Value)
    (args : Value) (id : String) (cb : RpcCb) : RpcState :=
  dispatchRpcMessage (cmd ++ "/response/" ++ id)
    (.vobj [("id", .vstr id), ("result", handler args)])
    (rpcAfterRequest s0 cmd handler args id cb)

/-- Claim C9 (confirmed): for every RPC call — after `register(cmd,
handler)` and `call(cmd, args)` with correlation id `id` — delivering the
request invokes the handler and publishes `{id, result}` on
`cmd/response/<id>`; when that response message arrives, the callback
registered by `call` is invoked with exactly the result value the handler
returned (a future-style call resolves its future with that value), the
stored callback entry is deleted, and the response-topic subscription is
removed from the client. The hypotheses pin the textual
`topic.replace('/request','/response')` to the canonical response prefix
(true whenever `cmd` does not itself contain `/request`) and require no
request handler to be registered at the response topic. -/
theorem claim9_rpc_roundtrip (s0 : RpcState) (cmd : String) (handler : Value → Value)
    (args : Value) (id : String) (cb : RpcCb)
    (hrep : strReplaceFirst "/request" "/response" (cmd ++ "/request") = cmd ++ "/response")
    (hnoh : objGet s0.rpcHandlers (cmd ++ "/response/" ++ id) = none) :
    (rpcAfterCall s0 cmd handler args id cb).requestsPublished =
      s0.requestsPublished ++
        [(cmd ++ "/request", .vobj [("id", .vstr id), ("args", args)])] ∧
    (rpcAfterRequest s0 cmd handler args id cb).responsesPublished =
      s0.responsesPublished ++
        [(cmd ++ "/response/" ++ id, .vobj [("id", .vstr id), ("result", handler args)])] ∧
    (∀ n, cb = .user n →
      (rpcAfterResponse s0 cmd handler args id cb).invocations =
        s0.invocations ++ [(n, handler args)]) ∧
    (∀ n, cb = .futureResolve n →
      (rpcAfterResponse s0 cmd handler args id cb).resolutions =
        s0.resolutions ++ [(n, handler args)]) ∧
    objGet (rpcAfterResponse s0 cmd handler args id cb).rpcCallbacks
      (cmd ++ "/response/" ++ id) = none ∧
    (cmd ++ "/response/" ++ id) ∉
      (rpcAfterResponse s0 cmd handler args id cb).subscriptions := by
  have hH2 : objGet (rpcAfterCall s0 cmd handler args id cb).rpcHandlers
      (cmd ++ "/request") = some handler := objGet_objInsert_self _ _ _
  have hfid : jsGetField (.vobj [("id", .vstr id), ("args", args)]) "id" = .vstr id := rfl
  have hfargs : jsGetField (.vobj [("id", .vstr id), ("args", args)]) "args" = args := rfl
  have hfres : jsGetField (.vobj [("id", .vstr id), ("result", handler args)]) "result" =
      handler args := rfl
  have h3 : rpcAfterRequest s0 cmd handler args id cb =
      { rpcAfterCall s0 cmd handler args id cb with
        responsesPublished := s0.responsesPublished ++
          [(cmd ++ "/response/" ++ id,
            .vobj [("id", .vstr id), ("result", handler args)])] } := by
    unfold rpcAfterRequest
    rw [dispatch_request_eq _ _ _ handler hH2]
    rw [hfid, hfargs, hrep]
    rw [show jsToString (Value.vstr id) = id from rfl]
    rw [respTopic_append_eq]
    rfl
  have hH3 : objGet (rpcAfterRequest s0 cmd handler args id cb).rpcHandlers
      (cmd ++ "/response/" ++ id) = none := by
    rw [h3]
    show objGet (objInsert s0.rpcHandlers (cmd ++ "/request") handler)
      (cmd ++ "/response/" ++ id) = none
    rw [objGet_objInsert_general]
    rw [requestTopic_ne_responseTopic]
    simp only [Bool.false_eq_true, if_false]
    exact hnoh
  have hC3 : objGet (rpcAfterRequest s0 cmd handler args id cb).rpcCallbacks
      (cmd ++ "/response/" ++ id) = some cb := by
    rw [h3]
    exact objGet_objInsert_self _ _ _
  refine ⟨rfl, by rw [h3], ?_, ?_, ?_, ?_⟩
  · intro n hcb
    subst hcb
    unfold rpcAfterResponse
    rw [dispatch_response_user_eq _ _ _ n hH3 hC3, hfres]
    rw [h3]
    rfl
  · intro n hcb
    subst hcb
    unfold rpcAfterResponse
    rw [dispatch_response_future_eq _ _ _ n hH3 hC3, hfres]
    rw [h3]
    rfl
  · unfold rpcAfterResponse
    cases cb with
    | user n =>
      rw [dispatch_response_user_eq _ _ _ n hH3 hC3]
      exact objGet_objDelete_self _ _
    | futureResolve n =>
      rw [dispatch_response_future_eq _ _ _ n hH3 hC3]
      exact objGet_objDelete_self _ _
  · unfold rpcAfterResponse
    cases cb with
    | user n =>
      rw [dispatch_response_user_eq _ _ _ n hH3 hC3]
      intro hmem
      have := List.of_mem_filter hmem
      simp [bne] at this
    | futureResolve n =>
      rw [dispatch_response_future_eq _ _ _ n hH3 hC3]
      intro hmem
      have := List.of_mem_filter hmem
      simp [bne] at this

/-- Witness for `claim9_rpc_roundtrip` for the command `/sq` with a
squaring handler called on `5` and correlation id `"c1"`. -/
theorem claim9_rpc_roundtrip_witness :
    strReplaceFirst "/request" "/response" ("/sq" ++ "/request") = "/sq" ++ "/response" ∧
    (rpcAfterResponse
        ⟨[], [], [], [], [], [], []⟩ "/sq"
        (fun v => match v with | .vnum n => .vnum (n * n) | _ => .vnull)
        (.vnum 5) "c1" (.user 0)).invocations = [(0, .vnum 25)] := by
  constructor
  · decide
  · have h := (claim9_rpc_roundtrip ⟨[], [], [], [], [], [], []⟩ "/sq"
      (fun v => match v with | .vnum n => .vnum (n * n) | _ => .vnull)
      (.vnum 5) "c1" (.user 0) (by decide) rfl).2.2.1 0 rfl
    rw [h]
    rfl
